import Mathlib

/-!
# Jib sync-map extraction

A shallow embedding of `pkg/skaffold/build/jib/sync.go`: the function
`getSyncMapFromSystem` and the method `SyncMap.addEntries`, together with the
library calls they make (`regexp.FindSubmatch` on the marker pattern,
`bytes.Replace`, `json.Unmarshal`, `os.Stat`).

Go byte slices and Go strings are lists of bytes; a byte is a natural number.
-/

set_option maxRecDepth 100000

namespace Jib

/-- A Go byte slice or string: the list of its bytes, each a natural number. -/
abbrev Bytes := List Nat

/-- The bytes of an ASCII string literal. -/
def bytes (s : String) : Bytes := s.toList.map Char.toNat

/-! ## Data model (`sync.go`, lines 32-48) -/

/-- The value of `time.Time` returned by `FileInfo.ModTime`. -/
abbrev Time := Int

/-- `type SyncEntry struct { Dest []string; FileTime time.Time; IsDirect bool }`. -/
structure SyncEntry where
  Dest : List Bytes
  FileTime : Time
  IsDirect : Bool
  deriving DecidableEq, Repr

/-- `type JSONSyncEntry struct { Src string; Dest string }`. -/
structure JSONSyncEntry where
  Src : Bytes
  Dest : Bytes
  deriving DecidableEq, Repr

/-- `type JSONSyncMap struct { Direct []JSONSyncEntry; Generated []JSONSyncEntry }`. -/
structure JSONSyncMap where
  Direct : List JSONSyncEntry
  Generated : List JSONSyncEntry
  deriving DecidableEq, Repr

/-- `type SyncMap map[string]SyncEntry`: a Go map, kept as a list of key/value
pairs in which no key occurs twice. -/
abbrev SyncMap := List (Bytes × SyncEntry)

/-- `make(SyncMap)`. -/
def SyncMap.empty : SyncMap := []

/-- Map read `sm[k]` with the presence flag. -/
def SyncMap.get? (sm : SyncMap) (k : Bytes) : Option SyncEntry :=
  (sm.find? (fun p => p.1 = k)).map Prod.snd

/-- Map assignment `sm[k] = v`: the entry for `k` is inserted or overwritten. -/
def SyncMap.set (sm : SyncMap) (k : Bytes) (v : SyncEntry) : SyncMap :=
  (k, v) :: sm.filter (fun p => p.1 ≠ k)

/-- The number of entries `len(sm)`. -/
def SyncMap.len (sm : SyncMap) : Nat := sm.length

/-- The keys of the map. -/
def SyncMap.keys (sm : SyncMap) : List Bytes := sm.map Prod.fst

/-! ## `regexp`: a backtracking matcher with leftmost-first semantics -/

/-- The syntax tree of the regular expressions used in `sync.go`. -/
inductive Regex where
  | empty : Regex
  | lit (b : Nat) : Regex
  | anyCharNotNL : Regex
  | cat (r₁ r₂ : Regex) : Regex
  | quest (r : Regex) : Regex
  | star (r : Regex) : Regex
  | capture (r : Regex) : Regex
  deriving Repr

/-- A literal string: the concatenation of its bytes. -/
def Regex.lits : Bytes → Regex
  | [] => Regex.empty
  | b :: bs => Regex.cat (Regex.lit b) (Regex.lits bs)

/-- Greedy iteration: try one more round of `step` (which has to consume
input) before trying the continuation. -/
def Regex.starLoop {α : Type} (step : Bytes → Option Bytes → (Bytes → Option Bytes → Option α) → Option α) :
    Nat → Bytes → Option Bytes → (Bytes → Option Bytes → Option α) → Option α
  | 0, s, c, k => k s c
  | n + 1, s, c, k =>
    (step s c (fun s' c' => if s'.length < s.length then Regex.starLoop step n s' c' k else none)).orElse
      (fun _ => k s c)

/-- Backtracking match of `r` at the start of `s`. `c` is the text of capture
group 1 so far, `k` the continuation that receives the unread input; the
alternatives are tried in the order of preference of Go's `regexp` (greedy
operators take the longer alternative first). `.` is taken byte by byte: Go
steps over one rune, an ill-formed byte counting as a rune of width 1, and the
bytes `\n` and `}` that delimit `.*` here are never inside a longer rune, so
the captured bytes are the same. -/
def Regex.run {α : Type} : Regex → Bytes → Option Bytes → (Bytes → Option Bytes → Option α) → Option α
  | Regex.empty, s, c, k => k s c
  | Regex.lit b, s, c, k =>
    match s with
    | x :: xs => if x = b then k xs c else none
    | [] => none
  | Regex.anyCharNotNL, s, c, k =>
    match s with
    | x :: xs => if x = 10 then none else k xs c
    | [] => none
  | Regex.cat r₁ r₂, s, c, k => r₁.run s c (fun s' c' => r₂.run s' c' k)
  | Regex.quest r, s, c, k => (r.run s c k).orElse (fun _ => k s c)
  | Regex.star r, s, c, k => Regex.starLoop r.run s.length s c k
  | Regex.capture r, s, c, k => r.run s c (fun s' _ => k s' (some (s.take (s.length - s'.length))))

/-- A match anchored at the start of `s`: the whole match and capture group 1. -/
def Regex.matchHere (re : Regex) (s : Bytes) : Option (Bytes × Option Bytes) :=
  re.run s none (fun rest c => some (s.take (s.length - rest.length), c))

/-- The leftmost match of `re` in `s`. -/
def Regex.find (re : Regex) : Bytes → Option (Bytes × Option Bytes)
  | [] => re.matchHere []
  | x :: xs => (re.matchHere (x :: xs)).orElse (fun _ => Regex.find re xs)

/-- `(*Regexp).FindSubmatch`: `nil` when there is no match, otherwise the
whole match followed by the text of group 1. -/
def Regex.FindSubmatch (re : Regex) (s : Bytes) : List Bytes :=
  match re.find s with
  | none => []
  | some (whole, c) => [whole, c.getD []]

/-- The pattern compiled at `sync.go:60`,
`BEGIN JIB JSON(?:: SYNCMAP/1)?\r?\n({.*})`. -/
def markerRegex : Regex :=
  Regex.cat (Regex.lits (bytes "BEGIN JIB JSON"))
    (Regex.cat (Regex.quest (Regex.lits (bytes ": SYNCMAP/1")))
      (Regex.cat (Regex.quest (Regex.lit 13))
        (Regex.cat (Regex.lit 10)
          (Regex.capture
            (Regex.cat (Regex.lit 123) (Regex.cat (Regex.star Regex.anyCharNotNL) (Regex.lit 125)))))))

/-! ## `bytes.Replace` -/

/-- The scanning loop of `bytes.Replace` for a non-empty `old`: `lim` is the
number of replacements still allowed (`none`: no limit), `skip` the number of
bytes of an occurrence of `old` that are still to be dropped. -/
def replaceLoop (old new : Bytes) : Option Nat → Nat → Bytes → Bytes
  | _, _, [] => []
  | lim, skip + 1, _ :: xs => replaceLoop old new lim skip xs
  | lim, 0, x :: xs =>
    if lim ≠ some 0 ∧ old.isPrefixOf (x :: xs) = true then
      new ++ replaceLoop old new (lim.map (fun m => m - 1)) (old.length - 1) xs
    else x :: replaceLoop old new lim 0 xs

/-- `bytes.Replace(s, old, new, n)` for a non-empty `old`: a copy of `s` with
the first `n` non-overlapping occurrences of `old` replaced by `new`, all of
them when `n < 0`. -/
def bytesReplace (s old new : Bytes) (n : Int) (_ : old ≠ []) : Bytes :=
  replaceLoop old new (if n < 0 then none else some n.toNat) 0 s

/-! ## Errors (`github.com/pkg/errors`) -/

/-- A Go `error`, kept as the text of its `Error()` message. -/
abbrev Error := Bytes

/-- `errors.New(msg)`. -/
def errorsNew (msg : Bytes) : Error := msg

/-- `errors.Wrap(err, msg)` and `errors.Wrapf(err, format, args...)` with the
format already expanded to `msg`: the message is `msg + ": " + err.Error()`. -/
def errorsWrap (err : Error) (msg : Bytes) : Error := msg ++ bytes ": " ++ err

/-- `errors.WithStack(err)`: the message is unchanged. -/
def errorsWithStack (err : Error) : Error := err

/-! ## The environment of the extraction -/

/-- An `*exec.Cmd`: the program and its arguments. -/
abbrev Cmd := List Bytes

/-- The `os.FileInfo` of a file, as far as `sync.go` reads it. -/
structure FileInfo where
  ModTime : Time
  deriving DecidableEq, Repr

/-- The collaborators outside `sync.go`: the command runner `util.RunCmdOut`,
the decoder `json.Unmarshal` applied to a zero `JSONSyncMap`, and the file
system seen through `os.Stat`. -/
structure Env where
  RunCmdOut : Cmd → Except Error Bytes
  Unmarshal : Bytes → Except Error JSONSyncMap
  Stat : Bytes → Except Error FileInfo

/-- A call made to the decoder or to the file system. -/
inductive Call where
  | unmarshal (data : Bytes) : Call
  | stat (name : Bytes) : Call
  deriving DecidableEq, Repr

/-- The state in which `addEntries` returns: the receiver map as the loop left
it, the returned error (`none` is `nil`), and the calls that were made. -/
structure AddResult where
  sm : SyncMap
  err : Option Error
  calls : List Call
  deriving DecidableEq, Repr

/-- What `getSyncMapFromSystem` returns, `(*SyncMap, error)` with `none` for
`nil`, and the calls that were made on the way. -/
structure Outcome where
  sm : Option SyncMap
  err : Option Error
  calls : List Call
  deriving DecidableEq, Repr

/-! ## `sync.go`, lines 50-93 -/

/-- `func (sm SyncMap) addEntries(entries []JSONSyncEntry, direct bool) error`. -/
def SyncMap.addEntries (env : Env) : SyncMap → List JSONSyncEntry → Bool → AddResult
  | sm, [], _ => ⟨sm, none, []⟩
  | sm, entry :: rest, direct =>
    match env.Stat entry.Src with
    | Except.error err =>
      ⟨sm, some (errorsWrap err (bytes "could not obtain file mod time for " ++ entry.Src)),
        [Call.stat entry.Src]⟩
    | Except.ok info =>
      let r := SyncMap.addEntries env
        (sm.set entry.Src ⟨[entry.Dest], info.ModTime, direct⟩) rest direct
      ⟨r.sm, r.err, Call.stat entry.Src :: r.calls⟩

/-- `func getSyncMapFromSystem(cmd *exec.Cmd) (*SyncMap, error)`. -/
def getSyncMapFromSystem (env : Env) (cmd : Cmd) : Outcome :=
  match env.RunCmdOut cmd with
  | Except.error err => ⟨none, some (errorsWrap err (bytes "failed to get Jib sync map")), []⟩
  | Except.ok stdout =>
    let «matches» := markerRegex.FindSubmatch stdout
    if «matches».length = 0 then
      ⟨none, some (errorsNew (bytes "failed to get Jib Sync data")), []⟩
    else
      let line := bytesReplace («matches».getD 1 []) [92] [92, 92] (-1) (by decide)
      match env.Unmarshal line with
      | Except.error err => ⟨none, some (errorsWithStack err), [Call.unmarshal line]⟩
      | Except.ok jsm =>
        let r₁ := SyncMap.addEntries env SyncMap.empty jsm.Direct true
        match r₁.err with
        | some err => ⟨none, some (errorsWithStack err), Call.unmarshal line :: r₁.calls⟩
        | none =>
          let r₂ := SyncMap.addEntries env r₁.sm jsm.Generated false
          match r₂.err with
          | some err =>
            ⟨none, some (errorsWithStack err), Call.unmarshal line :: (r₁.calls ++ r₂.calls)⟩
          | none => ⟨some r₂.sm, none, Call.unmarshal line :: (r₁.calls ++ r₂.calls)⟩

/-! ## The marker pattern, read off directly

What the backtracking matcher computes on `markerRegex`, written as plain
recursive functions; `find_markerRegex` below proves the two agree. -/

/-- Remove the prefix `l` from `s`. -/
def stripPrefix : Bytes → Bytes → Option Bytes
  | [], s => some s
  | _ :: _, [] => none
  | b :: bs, x :: xs => if x = b then stripPrefix bs xs else none

/-- The greedy loop of `.*`: offer the continuation the longest run of
non-newline bytes first, then shorter ones. -/
def greedyDots {α : Type} : Bytes → Option Bytes → (Bytes → Option Bytes → Option α) → Option α
  | [], c, k => k [] c
  | x :: xs, c, k =>
    if x = 10 then k (x :: xs) c else (greedyDots xs c k).orElse (fun _ => k (x :: xs) c)

/-- The text matched by `.*}` at the start of `w`: the bytes of the first line
of `w` up to and including its last `}`. -/
def payloadOf : Bytes → Option Bytes
  | [] => none
  | x :: xs =>
    if x = 10 then none
    else match payloadOf xs with
      | some p => some (x :: p)
      | none => if x = 125 then some [x] else none

/-- The capture of `({.*})` at the start of `u`, with the unread input. -/
def payloadHere : Bytes → Option (Bytes × Bytes)
  | [] => none
  | x :: w => if x = 123 then (payloadOf w).map (fun p => (123 :: p, w.drop p.length)) else none

/-- The match of `\r?\n({.*})` at the start of `u`. -/
def lineBreakHere : Bytes → Option (Bytes × Bytes)
  | [] => none
  | x :: v =>
    if x = 13 then
      match v with
      | [] => none
      | y :: v' => if y = 10 then payloadHere v' else none
    else if x = 10 then payloadHere v
    else none

/-- The match of `(?:: SYNCMAP/1)?\r?\n({.*})` at the start of `t`. -/
def versionHere (t : Bytes) : Option (Bytes × Bytes) :=
  ((stripPrefix (bytes ": SYNCMAP/1") t).bind lineBreakHere).orElse (fun _ => lineBreakHere t)

/-- The match of the whole marker pattern at the start of `s`: the text of
group 1 and the unread input. -/
def markerHere (s : Bytes) : Option (Bytes × Bytes) :=
  (stripPrefix (bytes "BEGIN JIB JSON") s).bind versionHere

/-- The text of group 1 in the leftmost match of the marker pattern. -/
def markerFind : Bytes → Option Bytes
  | [] => none
  | x :: xs => ((markerHere (x :: xs)).map Prod.fst).orElse (fun _ => markerFind xs)

/-! ## The stages of the extraction, named

Names for the pieces of `getSyncMapFromSystem` that the statements below talk
about; `getSyncMapFromSystem_found` proves that the function is their
composition. -/

/-- The normalisation at `sync.go:65`:
`bytes.Replace(payload, []byte("\\"), []byte("\\\\"), -1)`. -/
def normalizePayload (payload : Bytes) : Bytes :=
  bytesReplace payload [92] [92, 92] (-1) (by decide)

/-- Lines 70-77 of `sync.go`: the map built from a decoded payload. `line` is
the text that was handed to the decoder. -/
def buildSyncMap (env : Env) (line : Bytes) (jsm : JSONSyncMap) : Outcome :=
  let r₁ := SyncMap.addEntries env SyncMap.empty jsm.Direct true
  match r₁.err with
  | some err => ⟨none, some (errorsWithStack err), Call.unmarshal line :: r₁.calls⟩
  | none =>
    let r₂ := SyncMap.addEntries env r₁.sm jsm.Generated false
    match r₂.err with
    | some err =>
      ⟨none, some (errorsWithStack err), Call.unmarshal line :: (r₁.calls ++ r₂.calls)⟩
    | none => ⟨some r₂.sm, none, Call.unmarshal line :: (r₁.calls ++ r₂.calls)⟩

/-- The output holds a marker line: `BEGIN JIB JSON`, optionally followed by
`: SYNCMAP/1`, then a line break and a line that starts with `{` and holds a
`}`. -/
def HasMarkerLine (out : Bytes) : Prop :=
  ∃ pre version nl body rest : Bytes,
    out = pre ++ bytes "BEGIN JIB JSON" ++ version ++ nl ++ [123] ++ body ++ [125] ++ rest ∧
    (version = [] ∨ version = bytes ": SYNCMAP/1") ∧
    (nl = [10] ∨ nl = [13, 10]) ∧
    10 ∉ body

/-- Every entry of the list can be stat'ed. -/
def AllStat (env : Env) (entries : List JSONSyncEntry) : Prop :=
  ∀ e ∈ entries, ∃ info, env.Stat e.Src = Except.ok info

/-- The sources of a decoded payload in processing order: the direct entries,
then the generated ones. -/
def JSONSyncMap.entries (jsm : JSONSyncMap) : List JSONSyncEntry :=
  jsm.Direct ++ jsm.Generated

/-- The bytes of `s` before its first line feed. -/
def firstLine : Bytes → Bytes
  | [] => []
  | x :: xs => if x = 10 then [] else x :: firstLine xs

/-- The last entry of `entries` whose `Src` is `src`: the one whose write to
the map is not overwritten by a later entry. -/
def lastWithSrc (entries : List JSONSyncEntry) (src : Bytes) : Option JSONSyncEntry :=
  entries.reverse.find? (fun w => w.Src = src)

/-- The modification time that `os.Stat` reports for `name` (0 when the call
fails). -/
def statTime (env : Env) (name : Bytes) : Time :=
  match env.Stat name with
  | Except.ok info => info.ModTime
  | Except.error _ => 0

/-- Collapse each doubled backslash to one backslash. -/
def collapseBackslashes : Bytes → Bytes
  | [] => []
  | [x] => [x]
  | x :: y :: xs =>
    if x = 92 ∧ y = 92 then 92 :: collapseBackslashes xs
    else x :: collapseBackslashes (y :: xs)

/-- Double the byte if it is a backslash. -/
def doubleBackslash (b : Nat) : Bytes := if b = 92 then [92, 92] else [b]

/-- A line end: the end of the input or a line feed. -/
def AtLineEnd (rest : Bytes) : Prop := rest = [] ∨ ∃ r, rest = 10 :: r

/-- Appending `z` does not change the capture of `({.*})` at any suffix of `t`. -/
def Unread (t z : Bytes) : Prop :=
  ∀ v : Bytes, v <:+ t → (payloadHere (v ++ z)).map Prod.fst = (payloadHere v).map Prod.fst

/-! ## `encoding/json`: string literals

The decoding of one JSON string literal as Go's `encoding/json` does it
(`unquoteBytes` in `decode.go`, with `unicode/utf8` and `unicode/utf16`). These
are functions of the Go standard library, not of this repository; `&`, `|` and
the shifts of the Go code are written with `%`, `+`, `*` and `/`. -/

/-- `utf8.RuneError`, also `unicode.ReplacementChar`: U+FFFD. -/
def runeError : Nat := 0xFFFD

/-- The entry of the table `first` of `unicode/utf8` for a lead byte of a
multi-byte sequence: the length of the sequence and the accepted range of the
second byte; `none` for a byte that cannot start a sequence. -/
def utf8First (p0 : Nat) : Option (Nat × Nat × Nat) :=
  if 0xC2 ≤ p0 ∧ p0 ≤ 0xDF then some (2, 0x80, 0xBF)
  else if p0 = 0xE0 then some (3, 0xA0, 0xBF)
  else if 0xE1 ≤ p0 ∧ p0 ≤ 0xEC then some (3, 0x80, 0xBF)
  else if p0 = 0xED then some (3, 0x80, 0x9F)
  else if 0xEE ≤ p0 ∧ p0 ≤ 0xEF then some (3, 0x80, 0xBF)
  else if p0 = 0xF0 then some (4, 0x90, 0xBF)
  else if 0xF1 ≤ p0 ∧ p0 ≤ 0xF3 then some (4, 0x80, 0xBF)
  else if p0 = 0xF4 then some (4, 0x80, 0x8F)
  else none

/-- `utf8.DecodeRune(p)`: the first rune of `p` and its width in bytes;
`(runeError, 1)` for an encoding that is not well formed. -/
def utf8DecodeRune (p : Bytes) : Nat × Nat :=
  match p with
  | [] => (runeError, 0)
  | p0 :: rest =>
    if p0 < 0x80 then (p0, 1)
    else
      match utf8First p0 with
      | none => (runeError, 1)
      | some (sz, lo, hi) =>
        if p.length < sz then (runeError, 1)
        else
          match rest with
          | [] => (runeError, 1)
          | b1 :: rest1 =>
            if b1 < lo ∨ hi < b1 then (runeError, 1)
            else if sz ≤ 2 then ((p0 % 32) * 64 + b1 % 64, 2)
            else
              match rest1 with
              | [] => (runeError, 1)
              | b2 :: rest2 =>
                if b2 < 0x80 ∨ 0xBF < b2 then (runeError, 1)
                else if sz ≤ 3 then ((p0 % 16) * 4096 + (b1 % 64) * 64 + b2 % 64, 3)
                else
                  match rest2 with
                  | [] => (runeError, 1)
                  | b3 :: _ =>
                    if b3 < 0x80 ∨ 0xBF < b3 then (runeError, 1)
                    else ((p0 % 8) * 262144 + (b1 % 64) * 4096 + (b2 % 64) * 64 + b3 % 64, 4)

/-- `utf8.EncodeRune`: the UTF-8 encoding of the rune `r`; a surrogate or a
value above U+10FFFF is encoded as U+FFFD. -/
def utf8EncodeRune (r : Nat) : Bytes :=
  if r ≤ 0x7F then [r]
  else if r ≤ 0x7FF then [0xC0 + r / 64, 0x80 + r % 64]
  else if 0x10FFFF < r ∨ (0xD800 ≤ r ∧ r ≤ 0xDFFF) then [0xEF, 0xBF, 0xBD]
  else if r ≤ 0xFFFF then [0xE0 + r / 4096, 0x80 + (r / 64) % 64, 0x80 + r % 64]
  else [0xF0 + r / 262144, 0x80 + (r / 4096) % 64, 0x80 + (r / 64) % 64, 0x80 + r % 64]

/-- The value of a hexadecimal digit. -/
def hexDigit (c : Nat) : Option Nat :=
  if 48 ≤ c ∧ c ≤ 57 then some (c - 48)
  else if 97 ≤ c ∧ c ≤ 102 then some (c - 97 + 10)
  else if 65 ≤ c ∧ c ≤ 70 then some (c - 65 + 10)
  else none

/-- `getu4(s)`: the value of `\uXXXX` at the start of `s`; `none` is -1. -/
def getu4 (s : Bytes) : Option Nat :=
  match s with
  | 92 :: 117 :: a :: b :: c :: d :: _ =>
    match hexDigit a, hexDigit b, hexDigit c, hexDigit d with
    | some x, some y, some z, some w => some (((x * 16 + y) * 16 + z) * 16 + w)
    | _, _, _, _ => none
  | _ => none

/-- `utf16.DecodeRune(r1, r2)`: the rune of a surrogate pair, U+FFFD when the
pair is not valid. -/
def utf16DecodeRune (r1 : Nat) (r2 : Option Nat) : Nat :=
  match r2 with
  | none => runeError
  | some r2 =>
    if 0xD800 ≤ r1 ∧ r1 < 0xDC00 ∧ 0xDC00 ≤ r2 ∧ r2 < 0xE000 then
      (r1 - 0xD800) * 1024 + (r2 - 0xDC00) + 0x10000
    else runeError

/-- One round of the second loop of `unquoteBytes` at the byte `c` followed by
`cs`: the bytes written and the number of bytes read, `none` when the literal
is rejected. -/
def unquoteStep (c : Nat) (cs : Bytes) : Option (Bytes × Nat) :=
  if c = 92 then
    match cs with
    | [] => none
    | e :: _ =>
      if e = 34 ∨ e = 92 ∨ e = 47 ∨ e = 39 then some ([e], 2)
      else if e = 98 then some ([8], 2)
      else if e = 102 then some ([12], 2)
      else if e = 110 then some ([10], 2)
      else if e = 114 then some ([13], 2)
      else if e = 116 then some ([9], 2)
      else if e = 117 then
        match getu4 (c :: cs) with
        | none => none
        | some rr =>
          if 0xD800 ≤ rr ∧ rr < 0xE000 then
            if utf16DecodeRune rr (getu4 ((c :: cs).drop 6)) ≠ runeError then
              some (utf8EncodeRune (utf16DecodeRune rr (getu4 ((c :: cs).drop 6))), 12)
            else some (utf8EncodeRune runeError, 6)
          else some (utf8EncodeRune rr, 6)
      else none
  else if c = 34 ∨ c < 32 then none
  else if c < 0x80 then some ([c], 1)
  else some (utf8EncodeRune (utf8DecodeRune (c :: cs)).1, (utf8DecodeRune (c :: cs)).2)

/-- The second loop of `unquoteBytes`; `skip` counts the bytes of the current
round that are still to be passed over. -/
def unquoteLoop : Nat → Bytes → Option Bytes
  | _, [] => some []
  | skip + 1, _ :: cs => unquoteLoop skip cs
  | 0, c :: cs =>
    match unquoteStep c cs with
    | none => none
    | some (out, n) => (unquoteLoop (n - 1) cs).map (fun t => out ++ t)

/-- The first loop of `unquoteBytes`: the length of the longest prefix that
needs no unquoting. -/
def plainLen : Nat → Bytes → Nat
  | _, [] => 0
  | skip + 1, _ :: cs => 1 + plainLen skip cs
  | 0, c :: cs =>
    if c = 92 ∨ c = 34 ∨ c < 32 then 0
    else if c < 0x80 then 1 + plainLen 0 cs
    else if (utf8DecodeRune (c :: cs)).1 = runeError ∧ (utf8DecodeRune (c :: cs)).2 = 1 then 0
    else 1 + plainLen ((utf8DecodeRune (c :: cs)).2 - 1) cs

/-- `unquoteBytes` on the text between the quotes. -/
def unquoteBody (s : Bytes) : Option Bytes :=
  if plainLen 0 s = s.length then some s
  else (unquoteLoop 0 (s.drop (plainLen 0 s))).map (fun t => s.take (plainLen 0 s) ++ t)

/-- `unquoteBytes(s)`: the string that the JSON literal `s`, quotes included,
stands for; `none` when it is not a valid literal. -/
def unquoteBytes (s : Bytes) : Option Bytes :=
  if s.length < 2 ∨ s.head? ≠ some 34 ∨ s.getLast? ≠ some 34 then none
  else unquoteBody ((s.drop 1).take (s.length - 2))


/-- A well-formed UTF-8 encoding of one code point above U+007F (Unicode
Standard, table 3-7). -/
inductive Rune : Bytes → Prop where
  | two (b0 b1 : Nat) : 0xC2 ≤ b0 → b0 ≤ 0xDF → 0x80 ≤ b1 → b1 ≤ 0xBF → Rune [b0, b1]
  | three (b0 b1 b2 : Nat) :
      (b0 = 0xE0 ∧ 0xA0 ≤ b1 ∧ b1 ≤ 0xBF) ∨ (0xE1 ≤ b0 ∧ b0 ≤ 0xEC ∧ 0x80 ≤ b1 ∧ b1 ≤ 0xBF) ∨
        (b0 = 0xED ∧ 0x80 ≤ b1 ∧ b1 ≤ 0x9F) ∨ (0xEE ≤ b0 ∧ b0 ≤ 0xEF ∧ 0x80 ≤ b1 ∧ b1 ≤ 0xBF) →
      0x80 ≤ b2 → b2 ≤ 0xBF → Rune [b0, b1, b2]
  | four (b0 b1 b2 b3 : Nat) :
      (b0 = 0xF0 ∧ 0x90 ≤ b1 ∧ b1 ≤ 0xBF) ∨ (0xF1 ≤ b0 ∧ b0 ≤ 0xF3 ∧ 0x80 ≤ b1 ∧ b1 ≤ 0xBF) ∨
        (b0 = 0xF4 ∧ 0x80 ≤ b1 ∧ b1 ≤ 0x8F) →
      0x80 ≤ b2 → b2 ≤ 0xBF → 0x80 ≤ b3 → b3 ≤ 0xBF → Rune [b0, b1, b2, b3]

/-- Well-formed UTF-8: a sequence of ASCII bytes and well-formed multi-byte
encodings. -/
inductive WellFormedUTF8 : Bytes → Prop where
  | nil : WellFormedUTF8 []
  | ascii (b : Nat) (v : Bytes) : b < 0x80 → WellFormedUTF8 v → WellFormedUTF8 (b :: v)
  | rune (u v : Bytes) : Rune u → WellFormedUTF8 v → WellFormedUTF8 (u ++ v)

/-! ## Example environments -/

/-- A file system with the listed files and their modification times; any
other name fails the way `os.Stat` reports a missing file. -/
def exampleStat (files : List (Bytes × Time)) (name : Bytes) : Except Error FileInfo :=
  match files.find? (fun f => f.1 = name) with
  | some f => Except.ok ⟨f.2⟩
  | none => Except.error (bytes "stat " ++ name ++ bytes ": no such file or directory")

/-- An environment in which every command prints `out`, the decoder returns
`decoded` for the text `line` and rejects every other text, and the file system
holds `files`. -/
def exampleEnv (out line : Bytes) (decoded : JSONSyncMap) (files : List (Bytes × Time)) : Env :=
  Env.mk (fun _ => Except.ok out)
    (fun data => if data = line then Except.ok decoded
      else Except.error (bytes "invalid character"))
    (exampleStat files)

/-- An environment in which the command `[]` prints `out₁` and every other
command prints `out₂`; decoder and file system as in `exampleEnv`. -/
def exampleEnv₂ (out₁ out₂ line : Bytes) (decoded : JSONSyncMap) (files : List (Bytes × Time)) :
    Env :=
  Env.mk (fun cmd => if cmd = [] then Except.ok out₁ else Except.ok out₂)
    (fun data => if data = line then Except.ok decoded
      else Except.error (bytes "invalid character"))
    (exampleStat files)

/-- An example payload line: two direct entries and one generated entry whose
source is also a direct one. -/
def examplePayload : Bytes :=
  bytes ("\x7b\"direct\":[\x7b\"src\":\"/a/A.txt\",\"dest\":\"/app/A.txt\"\x7d," ++
    "\x7b\"src\":\"/a/B.java\",\"dest\":\"/app/B.java\"\x7d]," ++
    "\"generated\":[\x7b\"src\":\"/a/B.java\",\"dest\":\"/app/B.class\"\x7d]\x7d")

/-- The decoded form of `examplePayload`. -/
def exampleDecoded : JSONSyncMap :=
  ⟨[⟨bytes "/a/A.txt", bytes "/app/A.txt"⟩, ⟨bytes "/a/B.java", bytes "/app/B.java"⟩],
    [⟨bytes "/a/B.java", bytes "/app/B.class"⟩]⟩

/-- An example process output: a log line, the marker, the payload line. -/
def exampleOutput : Bytes :=
  bytes "Containerizing application\nBEGIN JIB JSON: SYNCMAP/1\n" ++ examplePayload ++ [10]

/-- An environment that prints `exampleOutput`, decodes `examplePayload` and
holds the listed files. -/
def exampleSystem (files : List (Bytes × Time)) : Env :=
  exampleEnv exampleOutput examplePayload exampleDecoded files

/-! ## The wire format of the payload and its decoding -/

/-- A well-formed multi-byte encoding starts the text. -/
def StartsWithRune (t : Bytes) : Prop := ∃ u r, Rune u ∧ t = u ++ r

/-- The text `d` is the text `v` coerced to well-formed UTF-8: every ASCII
byte, a backslash included, and every well-formed multi-byte encoding stays as
it is and where it is; every other byte is replaced by the three bytes of
U+FFFD. -/
inductive Coerced : Bytes → Bytes → Prop where
  | nil : Coerced [] []
  | ascii (b : Nat) (v d : Bytes) : b < 0x80 → Coerced v d → Coerced (b :: v) (b :: d)
  | rune (u v d : Bytes) : Rune u → Coerced v d → Coerced (u ++ v) (u ++ d)
  | illFormed (b : Nat) (v d : Bytes) : 0x80 ≤ b → ¬ StartsWithRune (b :: v) → Coerced v d →
      Coerced (b :: v) (0xEF :: 0xBF :: 0xBD :: d)

/-- No byte of the text is a control character or a double quote. -/
def Clean (v : Bytes) : Prop := ∀ b ∈ v, 32 ≤ b ∧ b ≠ 34

/-- A JSON string literal with the text `body` between the quotes. -/
def quoted (body : Bytes) : Bytes := [34] ++ body ++ [34]

/-- One wire entry as the build tool prints it, `w.1` being the text of the
`src` value and `w.2` the text of the `dest` value. -/
def renderEntry (w : Bytes × Bytes) : Bytes :=
  bytes "\x7b\"src\":" ++ quoted w.1 ++ bytes ",\"dest\":" ++ quoted w.2 ++ bytes "\x7d"

/-- The wire entries of one collection, separated by commas. -/
def renderEntries : List (Bytes × Bytes) → Bytes
  | [] => []
  | [w] => renderEntry w
  | w :: w' :: ws => renderEntry w ++ [44] ++ renderEntries (w' :: ws)

/-- The payload line of the wire format,
`{"direct":[{"src":"..","dest":".."},..],"generated":[..]}`, for the given
texts of the `src` and `dest` values. -/
def renderPayload (direct generated : List (Bytes × Bytes)) : Bytes :=
  bytes "\x7b\"direct\":[" ++ renderEntries direct ++ bytes "],\"generated\":[" ++
    renderEntries generated ++ bytes "]\x7d"

/-- The values of a collection after the normalisation of the payload line. -/
def normalizeValues (ws : List (Bytes × Bytes)) : List (Bytes × Bytes) :=
  ws.map (fun w => (normalizePayload w.1, normalizePayload w.2))

/-- The string that `encoding/json` decodes from the literal that the
normalised payload holds for the value `v` of the payload. -/
def decodeValue (v : Bytes) : Option Bytes := unquoteBytes (quoted (normalizePayload v))

/-- The decoded wire entry. -/
def decodeEntry (w : Bytes × Bytes) : Option JSONSyncEntry :=
  match decodeValue w.1, decodeValue w.2 with
  | some s, some d => some ⟨s, d⟩
  | _, _ => none

/-- The decoded wire entries of one collection, `none` when a literal is
rejected. -/
def decodeEntries : List (Bytes × Bytes) → Option (List JSONSyncEntry)
  | [] => some []
  | w :: ws =>
    match decodeEntry w, decodeEntries ws with
    | some e, some es => some (e :: es)
    | _, _ => none

/-- What `json.Unmarshal` stores in a zero `JSONSyncMap` for the normalised
payload line `renderPayload direct generated`, the values holding no double
quote (a quote would end the literal): every `Src` and `Dest` is the string
that `unquoteBytes` returns for its literal. Modelled from Go's
`encoding/json`, which is not code of this repository. -/
def decodeWire (direct generated : List (Bytes × Bytes)) : Option JSONSyncMap :=
  match decodeEntries direct, decodeEntries generated with
  | some d, some g => some ⟨d, g⟩
  | _, _ => none

/-- The string `d` decoded for the value `v` of the payload: `v` coerced to
well-formed UTF-8, hence with the backslashes and all other ASCII bytes of `v`,
in order, and equal to `v` when `v` is well-formed UTF-8. -/
def DecodedValue (v d : Bytes) : Prop :=
  Coerced v d ∧ d.count 92 = v.count 92 ∧
    d.filter (fun b => b < 0x80) = v.filter (fun b => b < 0x80) ∧
    (WellFormedUTF8 v → d = v ∧ ∀ i, (d.get? i = some 92 ↔ v.get? i = some 92))

/-- An example collection: one entry whose source is a Windows path. -/
def windowsWire : List (Bytes × Bytes) := [(bytes "C:\\src\\A.class", bytes "/app/A.class")]

/-- The decoded form of `windowsWire`. -/
def windowsDecoded : JSONSyncMap :=
  ⟨[⟨bytes "C:\\src\\A.class", bytes "/app/A.class"⟩], []⟩

/-- An example collection: one entry whose source is `C:\` followed by the
byte 0xE9, an e acute in Latin-1, which is not well-formed UTF-8. -/
def latin1Wire : List (Bytes × Bytes) := [([67, 58, 92, 0xE9], bytes "/app/x")]

/-- What the decoder returns for `latin1Wire`: U+FFFD in the place of the byte
0xE9. -/
def latin1Decoded : JSONSyncMap :=
  ⟨[⟨[67, 58, 92, 0xEF, 0xBF, 0xBD], bytes "/app/x"⟩], []⟩

/-- A process output that holds the marker and the payload line of the wire
format for the given values. -/
def wireOutput (direct generated : List (Bytes × Bytes)) : Bytes :=
  bytes "BEGIN JIB JSON: SYNCMAP/1\n" ++ renderPayload direct generated ++ [10]

/-- An environment that prints `wireOutput direct generated`, decodes the
normalised payload line to `decoded` and holds the listed files. -/
def wireSystem (direct generated : List (Bytes × Bytes)) (decoded : JSONSyncMap)
    (files : List (Bytes × Time)) : Env :=
  exampleEnv (wireOutput direct generated) (normalizePayload (renderPayload direct generated))
    decoded files

/-! ### The matcher on the marker pattern -/

theorem stripPrefix_eq_some {l s r : Bytes} : stripPrefix l s = some r ↔ s = l ++ r := by
  induction l generalizing s with
  | nil => simp [stripPrefix, eq_comm]
  | cons b bs ih =>
    cases s with
    | nil => simp [stripPrefix]
    | cons x xs =>
      by_cases h : x = b
      · simp [stripPrefix, h, ih]
      · simp [stripPrefix, h]

theorem stripPrefix_append (l r : Bytes) : stripPrefix l (l ++ r) = some r :=
  stripPrefix_eq_some.2 rfl

theorem run_lits {α : Type} (l s : Bytes) (c : Option Bytes) (k : Bytes → Option Bytes → Option α) :
    (Regex.lits l).run s c k = (stripPrefix l s).bind (fun r => k r c) := by
  induction l generalizing s with
  | nil => simp [Regex.lits, Regex.run, stripPrefix]
  | cons b bs ih =>
    cases s with
    | nil => simp [Regex.lits, Regex.run, stripPrefix]
    | cons x xs =>
      by_cases h : x = b
      · simp [Regex.lits, Regex.run, stripPrefix, h, ih]
      · simp [Regex.lits, Regex.run, stripPrefix, h]

theorem run_lit_nil {α : Type} (b : Nat) (c : Option Bytes) (k : Bytes → Option Bytes → Option α) :
    (Regex.lit b).run [] c k = none := rfl

theorem run_lit_cons {α : Type} (b x : Nat) (xs : Bytes) (c : Option Bytes)
    (k : Bytes → Option Bytes → Option α) :
    (Regex.lit b).run (x :: xs) c k = if x = b then k xs c else none := rfl

theorem run_any_nil {α : Type} (c : Option Bytes) (k : Bytes → Option Bytes → Option α) :
    Regex.anyCharNotNL.run [] c k = none := rfl

theorem run_any_cons {α : Type} (x : Nat) (xs : Bytes) (c : Option Bytes)
    (k : Bytes → Option Bytes → Option α) :
    Regex.anyCharNotNL.run (x :: xs) c k = if x = 10 then none else k xs c := rfl

theorem run_cat {α : Type} (r₁ r₂ : Regex) (s : Bytes) (c : Option Bytes)
    (k : Bytes → Option Bytes → Option α) :
    (Regex.cat r₁ r₂).run s c k = r₁.run s c (fun s' c' => r₂.run s' c' k) := rfl

theorem run_quest {α : Type} (r : Regex) (s : Bytes) (c : Option Bytes)
    (k : Bytes → Option Bytes → Option α) :
    (Regex.quest r).run s c k = (r.run s c k).orElse (fun _ => k s c) := rfl

theorem run_star {α : Type} (r : Regex) (s : Bytes) (c : Option Bytes)
    (k : Bytes → Option Bytes → Option α) :
    (Regex.star r).run s c k = Regex.starLoop r.run s.length s c k := rfl

theorem run_capture {α : Type} (r : Regex) (s : Bytes) (c : Option Bytes)
    (k : Bytes → Option Bytes → Option α) :
    (Regex.capture r).run s c k =
      r.run s c (fun s' _ => k s' (some (s.take (s.length - s'.length)))) := rfl

theorem starLoop_anyCharNotNL {α : Type} (n : Nat) (s : Bytes) (c : Option Bytes)
    (k : Bytes → Option Bytes → Option α) (h : s.length ≤ n) :
    Regex.starLoop Regex.anyCharNotNL.run n s c k = greedyDots s c k := by
  induction n generalizing s with
  | zero =>
    have : s = [] := List.length_eq_zero.1 (Nat.le_zero.1 h)
    subst this
    simp [Regex.starLoop, greedyDots]
  | succ n ih =>
    cases s with
    | nil => simp [Regex.starLoop, greedyDots, run_any_nil]
    | cons x xs =>
      have hx : xs.length ≤ n := by simpa using h
      by_cases h10 : x = 10
      · simp [Regex.starLoop, greedyDots, run_any_cons, h10]
      · simp [Regex.starLoop, greedyDots, run_any_cons, h10, ih xs hx]

theorem payloadOf_eq_append {w p : Bytes} (h : payloadOf w = some p) : w = p ++ w.drop p.length := by
  induction w generalizing p with
  | nil => simp [payloadOf] at h
  | cons x xs ih =>
    by_cases h10 : x = 10
    · simp [payloadOf, h10] at h
    · cases hp : payloadOf xs with
      | some q =>
        simp [payloadOf, h10, hp] at h
        subst h
        simpa using ih hp
      | none =>
        by_cases h125 : x = 125
        · simp [payloadOf, hp, h125] at h
          subst h
          simp [h125]
        · simp [payloadOf, h10, hp, h125] at h

theorem greedyDots_rbrace {α : Type} (w : Bytes) (c : Option Bytes) (g : Bytes → Option Bytes → α) :
    greedyDots w c (fun s' c' => (Regex.lit 125).run s' c' (fun r c'' => some (g r c''))) =
      (payloadOf w).map (fun p => g (w.drop p.length) c) := by
  induction w with
  | nil => simp [greedyDots, payloadOf, run_lit_nil]
  | cons x xs ih =>
    by_cases h10 : x = 10
    · simp [greedyDots, payloadOf, run_lit_cons, h10]
    · cases hp : payloadOf xs with
      | some q => simp [greedyDots, payloadOf, h10, ih, hp]
      | none =>
        by_cases h125 : x = 125
        · simp [greedyDots, payloadOf, run_lit_cons, ih, hp, h125]
        · simp [greedyDots, payloadOf, run_lit_cons, h10, ih, hp, h125]

theorem run_payload {α : Type} (u : Bytes) (c : Option Bytes) (g : Bytes → Option Bytes → α) :
    (Regex.capture (Regex.cat (Regex.lit 123)
        (Regex.cat (Regex.star Regex.anyCharNotNL) (Regex.lit 125)))).run u c
        (fun r c' => some (g r c')) =
      (payloadHere u).map (fun pr => g pr.2 (some pr.1)) := by
  cases u with
  | nil => simp [run_capture, run_cat, run_lit_nil, payloadHere]
  | cons x w =>
    by_cases h : x = 123
    · subst h
      simp only [run_capture, run_cat, run_lit_cons, run_star, payloadHere, if_true]
      rw [starLoop_anyCharNotNL _ _ _ _ (le_refl _)]
      rw [greedyDots_rbrace w c (fun r _ => g r (some ((123 :: w).take ((123 :: w).length - r.length))))]
      cases hp : payloadOf w with
      | none => simp
      | some p =>
        have hw := payloadOf_eq_append hp
        have hl : (List.drop p.length w).length = w.length - p.length := by simp
        have hle : p.length ≤ w.length := by
          have := congrArg List.length hw
          simp at this
          omega
        have e : (123 :: w).length - (List.drop p.length w).length = p.length + 1 := by
          simp only [List.length_cons, hl]; omega
        have t : List.take (p.length + 1) (123 :: w) = 123 :: p := by
          rw [List.take_succ_cons]
          congr 1
          conv_lhs => rw [hw]
          simp
        simp only [Option.map_some', e, t]
    · simp [run_capture, run_cat, run_lit_cons, payloadHere, h]

theorem run_lineBreak {α : Type} (u : Bytes) (c : Option Bytes) (g : Bytes → Option Bytes → α) :
    (Regex.cat (Regex.quest (Regex.lit 13))
        (Regex.cat (Regex.lit 10)
          (Regex.capture (Regex.cat (Regex.lit 123)
            (Regex.cat (Regex.star Regex.anyCharNotNL) (Regex.lit 125)))))).run u c
        (fun r c' => some (g r c')) =
      (lineBreakHere u).map (fun pr => g pr.2 (some pr.1)) := by
  rw [run_cat, run_quest]
  cases u with
  | nil => simp [run_cat, run_lit_nil, lineBreakHere]
  | cons x v =>
    by_cases h13 : x = 13
    · subst h13
      cases v with
      | nil => simp [run_cat, run_lit_nil, run_lit_cons, lineBreakHere]
      | cons y v' =>
        by_cases h10 : y = 10
        · subst h10
          simp only [run_lit_cons, if_true, lineBreakHere]
          rw [run_cat, run_lit_cons, if_pos rfl, run_payload]
          rw [run_cat, run_lit_cons]
          simp
        · simp [run_cat, run_lit_cons, lineBreakHere, h10]
    · by_cases h10 : x = 10
      · subst h10
        simp only [run_lit_cons, lineBreakHere, if_neg h13, if_true]
        rw [run_cat, run_lit_cons, if_pos rfl, run_payload]
        simp
      · simp [run_cat, run_lit_cons, lineBreakHere, h13, h10]

theorem run_markerRegex {α : Type} (s : Bytes) (c : Option Bytes) (g : Bytes → Option Bytes → α) :
    markerRegex.run s c (fun r c' => some (g r c')) =
      (markerHere s).map (fun pr => g pr.2 (some pr.1)) := by
  unfold markerRegex markerHere
  rw [run_cat, run_lits]
  cases hs : stripPrefix (bytes "BEGIN JIB JSON") s with
  | none => simp
  | some t =>
    simp only [Option.some_bind]
    rw [run_cat, run_quest, run_lits]
    unfold versionHere
    cases ht : stripPrefix (bytes ": SYNCMAP/1") t with
    | none => simp [run_lineBreak]
    | some u =>
      simp only [Option.some_bind]
      rw [run_lineBreak, run_lineBreak]
      cases lineBreakHere u <;> simp

theorem matchHere_markerRegex (s : Bytes) :
    markerRegex.matchHere s =
      (markerHere s).map (fun pr => (s.take (s.length - pr.2.length), some pr.1)) := by
  unfold Regex.matchHere
  exact run_markerRegex s none (fun r c => (s.take (s.length - r.length), c))

theorem markerHere_nil : markerHere [] = none := by
  simp [markerHere, stripPrefix, bytes]

theorem find_markerRegex (s : Bytes) :
    (markerRegex.find s).map (fun r => r.2.getD []) = markerFind s := by
  induction s with
  | nil => simp [Regex.find, matchHere_markerRegex, markerHere_nil, markerFind]
  | cons x xs ih =>
    simp only [Regex.find, markerFind, matchHere_markerRegex]
    cases h : markerHere (x :: xs) with
    | none => simpa using ih
    | some pr => simp

/-- `FindSubmatch` on the marker pattern: `nil` when `markerFind` finds nothing,
otherwise a two-element slice whose second element is the text of group 1. -/
theorem FindSubmatch_markerRegex (s : Bytes) :
    (markerFind s = none ∧ markerRegex.FindSubmatch s = []) ∨
      (∃ whole p, markerFind s = some p ∧ markerRegex.FindSubmatch s = [whole, p]) := by
  have h := find_markerRegex s
  unfold Regex.FindSubmatch
  cases hf : markerRegex.find s with
  | none =>
    left
    rw [hf] at h
    exact ⟨by simpa using h.symm, rfl⟩
  | some r =>
    right
    rw [hf] at h
    exact ⟨r.1, r.2.getD [], by simpa using h.symm, rfl⟩

theorem FindSubmatch_eq_nil_iff (s : Bytes) :
    markerRegex.FindSubmatch s = [] ↔ markerFind s = none := by
  rcases FindSubmatch_markerRegex s with ⟨h₁, h₂⟩ | ⟨w, p, h₁, h₂⟩
  · simp [h₁, h₂]
  · simp [h₁, h₂]

theorem FindSubmatch_group (s p : Bytes) (h : markerFind s = some p) :
    ∃ whole, markerRegex.FindSubmatch s = [whole, p] := by
  rcases FindSubmatch_markerRegex s with ⟨h₁, _⟩ | ⟨w, q, h₁, h₂⟩
  · rw [h] at h₁; cases h₁
  · rw [h] at h₁; cases h₁; exact ⟨w, h₂⟩

/-! ### `getSyncMapFromSystem` as the composition of its stages -/

theorem getSyncMapFromSystem_notFound (env : Env) (cmd : Cmd) (out : Bytes)
    (hrun : env.RunCmdOut cmd = Except.ok out) (hfind : markerFind out = none) :
    getSyncMapFromSystem env cmd =
      ⟨none, some (bytes "failed to get Jib Sync data"), []⟩ := by
  have h := (FindSubmatch_eq_nil_iff out).2 hfind
  simp [getSyncMapFromSystem, hrun, h, errorsNew]

theorem getSyncMapFromSystem_found (env : Env) (cmd : Cmd) (out p : Bytes)
    (hrun : env.RunCmdOut cmd = Except.ok out) (hfind : markerFind out = some p) :
    getSyncMapFromSystem env cmd =
      match env.Unmarshal (normalizePayload p) with
      | Except.error err => ⟨none, some err, [Call.unmarshal (normalizePayload p)]⟩
      | Except.ok jsm => buildSyncMap env (normalizePayload p) jsm := by
  obtain ⟨whole, h⟩ := FindSubmatch_group out p hfind
  simp only [getSyncMapFromSystem, hrun, h]
  simp only [List.length_cons, List.length_nil, Nat.reduceAdd, OfNat.ofNat_ne_zero, if_false]
  have e : [whole, p].getD 1 [] = p := rfl
  rw [e]
  rfl

/-! ### What a match looks like -/

theorem payloadOf_some {w p : Bytes} (h : payloadOf w = some p) :
    ∃ body, p = body ++ [125] ∧ 10 ∉ body := by
  induction w generalizing p with
  | nil => simp [payloadOf] at h
  | cons x xs ih =>
    by_cases h10 : x = 10
    · simp [payloadOf, h10] at h
    · cases hp : payloadOf xs with
      | some q =>
        simp [payloadOf, h10, hp] at h
        obtain ⟨body, hb, hn⟩ := ih hp
        refine ⟨x :: body, ?_, ?_⟩
        · rw [← h, hb]; rfl
        · simp only [List.mem_cons, not_or]
          exact ⟨fun e => h10 e.symm, hn⟩
      | none =>
        by_cases h125 : x = 125
        · simp [payloadOf, hp, h125] at h
          exact ⟨[], by simp [← h], by simp⟩
        · simp [payloadOf, h10, hp, h125] at h

theorem payloadOf_append_rbrace (body rest : Bytes) (h : 10 ∉ body) :
    ∃ p, payloadOf (body ++ 125 :: rest) = some p := by
  induction body with
  | nil =>
    cases hp : payloadOf rest with
    | some q => exact ⟨125 :: q, by simp [payloadOf, hp]⟩
    | none => exact ⟨[125], by simp [payloadOf, hp]⟩
  | cons x xs ih =>
    simp only [List.mem_cons, not_or] at h
    obtain ⟨q, hq⟩ := ih h.2
    have hx : ¬ x = 10 := fun e => h.1 e.symm
    exact ⟨x :: q, by simp [payloadOf, hx, hq]⟩

theorem payloadOf_tail (tail rest : Bytes) (h125 : 125 ∉ tail) (hrest : AtLineEnd rest) :
    payloadOf (tail ++ rest) = none := by
  induction tail with
  | nil =>
    rcases hrest with rfl | ⟨r, rfl⟩
    · simp [payloadOf]
    · simp [payloadOf]
  | cons x xs ih =>
    simp only [List.mem_cons, not_or] at h125
    have hx : ¬ x = 125 := fun e => h125.1 e.symm
    by_cases h10 : x = 10
    · simp [payloadOf, h10]
    · simp [payloadOf, h10, ih h125.2, hx]

theorem payloadOf_line (body tail rest : Bytes) (h10 : 10 ∉ body) (h125 : 125 ∉ tail)
    (hrest : AtLineEnd rest) :
    payloadOf (body ++ 125 :: (tail ++ rest)) = some (body ++ [125]) := by
  induction body with
  | nil => simp [payloadOf, payloadOf_tail tail rest h125 hrest]
  | cons x xs ih =>
    simp only [List.mem_cons, not_or] at h10
    have hx : ¬ x = 10 := fun e => h10.1 e.symm
    simp [payloadOf, hx, ih h10.2]

theorem markerHere_marker (version nl w : Bytes)
    (hv : version = [] ∨ version = bytes ": SYNCMAP/1") (hnl : nl = [10] ∨ nl = [13, 10]) :
    markerHere (bytes "BEGIN JIB JSON" ++ version ++ nl ++ 123 :: w) =
      (payloadOf w).map (fun p => (123 :: p, w.drop p.length)) := by
  unfold markerHere
  rw [List.append_assoc, List.append_assoc, stripPrefix_append]
  simp only [Option.some_bind]
  unfold versionHere
  rcases hv with rfl | rfl
  · rcases hnl with rfl | rfl
    · simp [stripPrefix, bytes, lineBreakHere, payloadHere]
    · simp [stripPrefix, bytes, lineBreakHere, payloadHere]
  · rw [stripPrefix_append]
    rcases hnl with rfl | rfl
    · cases hp : payloadOf w <;> simp [bytes, lineBreakHere, payloadHere, hp]
    · cases hp : payloadOf w <;> simp [bytes, lineBreakHere, payloadHere, hp]

theorem markerHere_some {s p rest : Bytes} (h : markerHere s = some (p, rest)) :
    ∃ version nl body : Bytes,
      s = bytes "BEGIN JIB JSON" ++ version ++ nl ++ [123] ++ body ++ [125] ++ rest ∧
      (version = [] ∨ version = bytes ": SYNCMAP/1") ∧ (nl = [10] ∨ nl = [13, 10]) ∧
      10 ∉ body ∧ p = 123 :: (body ++ [125]) := by
  unfold markerHere at h
  cases hs : stripPrefix (bytes "BEGIN JIB JSON") s with
  | none => simp [hs] at h
  | some t =>
    rw [hs] at h
    simp only [Option.some_bind] at h
    have hs' := stripPrefix_eq_some.1 hs
    have key : ∀ u : Bytes, lineBreakHere u = some (p, rest) →
        ∃ nl body : Bytes, u = nl ++ [123] ++ body ++ [125] ++ rest ∧
          (nl = [10] ∨ nl = [13, 10]) ∧ 10 ∉ body ∧ p = 123 :: (body ++ [125]) := by
      intro u hu
      have pay : ∀ v : Bytes, payloadHere v = some (p, rest) →
          ∃ body : Bytes, v = [123] ++ body ++ [125] ++ rest ∧ 10 ∉ body ∧
            p = 123 :: (body ++ [125]) := by
        intro v hv
        cases v with
        | nil => simp [payloadHere] at hv
        | cons x w =>
          by_cases hx : x = 123
          · subst hx
            simp only [payloadHere, if_true] at hv
            cases hp : payloadOf w with
            | none => simp [hp] at hv
            | some q =>
              rw [hp] at hv
              simp only [Option.map_some', Option.some.injEq, Prod.mk.injEq] at hv
              obtain ⟨body, hb, hn⟩ := payloadOf_some hp
              have hw := payloadOf_eq_append hp
              refine ⟨body, ?_, hn, ?_⟩
              · rw [hv.2] at hw
                rw [hw, hb]; simp
              · rw [← hv.1, hb]
          · simp [payloadHere, hx] at hv
      cases u with
      | nil => simp [lineBreakHere] at hu
      | cons x v =>
        by_cases h13 : x = 13
        · subst h13
          cases v with
          | nil => simp [lineBreakHere] at hu
          | cons y v' =>
            by_cases h10 : y = 10
            · subst h10
              simp only [lineBreakHere, if_true] at hu
              obtain ⟨body, hb, hn, hp⟩ := pay v' hu
              exact ⟨[13, 10], body, by rw [hb]; simp, Or.inr rfl, hn, hp⟩
            · simp [lineBreakHere, h10] at hu
        · by_cases h10 : x = 10
          · subst h10
            simp only [lineBreakHere, if_neg h13, if_true] at hu
            obtain ⟨body, hb, hn, hp⟩ := pay v hu
            exact ⟨[10], body, by rw [hb]; simp, Or.inl rfl, hn, hp⟩
          · simp [lineBreakHere, h13, h10] at hu
    unfold versionHere at h
    cases hv : stripPrefix (bytes ": SYNCMAP/1") t with
    | none =>
      rw [hv] at h
      simp only [Option.none_bind, Option.none_orElse] at h
      obtain ⟨nl, body, hu, hnl, hn, hp⟩ := key t h
      exact ⟨[], nl, body, by rw [hs', hu]; simp, Or.inl rfl, hnl, hn, hp⟩
    | some u =>
      rw [hv] at h
      simp only [Option.some_bind] at h
      have hv' := stripPrefix_eq_some.1 hv
      cases hl : lineBreakHere u with
      | none =>
        rw [hl] at h
        replace h : lineBreakHere t = some (p, rest) := by simpa using h
        obtain ⟨nl, body, hu, hnl, hn, hp⟩ := key t h
        exact ⟨[], nl, body, by rw [hs', hu]; simp, Or.inl rfl, hnl, hn, hp⟩
      | some pr =>
        rw [hl] at h
        replace h : pr = (p, rest) := by simpa using h
        subst h
        obtain ⟨nl, body, hu, hnl, hn, hp⟩ := key u hl
        exact ⟨bytes ": SYNCMAP/1", nl, body, by rw [hs', hv', hu]; simp, Or.inr rfl, hnl, hn, hp⟩

/-! ### Leftmost match -/

theorem markerFind_cons (x : Nat) (xs : Bytes) :
    markerFind (x :: xs) =
      ((markerHere (x :: xs)).map Prod.fst).orElse (fun _ => markerFind xs) := rfl

theorem markerFind_of_here {t : Bytes} {pr : Bytes × Bytes} (h : markerHere t = some pr) :
    markerFind t = some pr.1 := by
  cases t with
  | nil => simp [markerHere_nil] at h
  | cons x xs => simp [markerFind_cons, h]

theorem markerFind_some {s p : Bytes} (h : markerFind s = some p) :
    ∃ pre version nl body rest : Bytes,
      s = pre ++ bytes "BEGIN JIB JSON" ++ version ++ nl ++ [123] ++ body ++ [125] ++ rest ∧
      (version = [] ∨ version = bytes ": SYNCMAP/1") ∧ (nl = [10] ∨ nl = [13, 10]) ∧
      10 ∉ body ∧ p = 123 :: (body ++ [125]) := by
  induction s with
  | nil => simp [markerFind] at h
  | cons x xs ih =>
    simp only [markerFind] at h
    cases hm : markerHere (x :: xs) with
    | some pr =>
      rw [hm] at h
      replace h : pr.1 = p := by simpa using h
      obtain ⟨version, nl, body, hs, hv, hnl, hn, hp⟩ :=
        @markerHere_some _ pr.1 pr.2 hm
      exact ⟨[], version, nl, body, pr.2, by rw [hs]; simp, hv, hnl, hn, by rw [← h, hp]⟩
    | none =>
      rw [hm] at h
      replace h : markerFind xs = some p := by simpa using h
      obtain ⟨pre, version, nl, body, rest, hs, hv, hnl, hn, hp⟩ := ih h
      exact ⟨x :: pre, version, nl, body, rest, by rw [hs]; simp, hv, hnl, hn, hp⟩

theorem markerFind_append_isSome (pre t : Bytes) (h : (markerHere t).isSome) :
    (markerFind (pre ++ t)).isSome := by
  induction pre with
  | nil =>
    cases t with
    | nil => simp [markerHere_nil] at h
    | cons x xs =>
      simp only [List.nil_append, markerFind]
      cases hm : markerHere (x :: xs) with
      | none => simp [hm] at h
      | some pr => simp
  | cons y ys ih =>
    simp only [List.cons_append, markerFind]
    cases hm : markerHere (y :: (ys ++ t)) with
    | none => simpa using ih
    | some pr => simp

/-- The output holds a marker line exactly when the marker pattern matches. -/
theorem hasMarkerLine_iff (out : Bytes) : HasMarkerLine out ↔ markerFind out ≠ none := by
  constructor
  · rintro ⟨pre, version, nl, body, rest, hs, hv, hnl, hn⟩
    have h₁ : out = pre ++ (bytes "BEGIN JIB JSON" ++ version ++ nl ++ 123 :: (body ++ 125 :: rest)) := by
      rw [hs]; simp
    obtain ⟨p, hp⟩ := payloadOf_append_rbrace body rest hn
    have h₂ := markerHere_marker version nl (body ++ 125 :: rest) hv hnl
    rw [hp] at h₂
    have h₃ := markerFind_append_isSome pre _ (by rw [h₂]; rfl)
    rw [← h₁] at h₃
    intro hnone
    rw [hnone] at h₃
    cases h₃
  · intro h
    cases hf : markerFind out with
    | none => exact absurd hf h
    | some p =>
      obtain ⟨pre, version, nl, body, rest, hs, hv, hnl, hn, _⟩ := markerFind_some hf
      exact ⟨pre, version, nl, body, rest, hs, hv, hnl, hn⟩

/-! ### Bytes that a match does not read -/

theorem stripPrefix_append_right (l t z : Bytes) (hl : 10 ∉ l) (ht : 10 ∈ t) :
    stripPrefix l (t ++ z) = (stripPrefix l t).map (fun r => r ++ z) := by
  induction l generalizing t with
  | nil => simp [stripPrefix]
  | cons b bs ih =>
    cases t with
    | nil => simp at ht
    | cons x xs =>
      simp only [List.mem_cons, not_or] at hl
      by_cases hx : x = b
      · subst hx
        have hxs : 10 ∈ xs := by
          rcases List.mem_cons.1 ht with e | e
          · exact absurd e hl.1
          · exact e
        simp [stripPrefix, ih xs hl.2 hxs]
      · simp [stripPrefix, hx]

theorem payloadOf_append_of_mem (w z : Bytes) (h : 10 ∈ w) : payloadOf (w ++ z) = payloadOf w := by
  induction w with
  | nil => simp at h
  | cons x xs ih =>
    by_cases h10 : x = 10
    · simp [payloadOf, h10]
    · have hxs : 10 ∈ xs := by
        rcases List.mem_cons.1 h with e | e
        · exact absurd e.symm h10
        · exact e
      simp [payloadOf, h10, ih hxs]

theorem payloadOf_append_lf (w z : Bytes) : payloadOf (w ++ 10 :: z) = payloadOf w := by
  induction w with
  | nil => simp [payloadOf]
  | cons x xs ih =>
    by_cases h10 : x = 10
    · simp [payloadOf, h10]
    · simp [payloadOf, h10, ih]

theorem payloadHere_append_of_mem (v z : Bytes) (h : 10 ∈ v) :
    (payloadHere (v ++ z)).map Prod.fst = (payloadHere v).map Prod.fst := by
  cases v with
  | nil => simp at h
  | cons x w =>
    by_cases hx : x = 123
    · subst hx
      have hw : 10 ∈ w := by
        rcases List.mem_cons.1 h with e | e
        · simp at e
        · exact e
      simp only [List.cons_append, payloadHere, if_true, payloadOf_append_of_mem w z hw]
      cases payloadOf w <;> simp
    · simp [payloadHere, hx]

theorem payloadOf_append_no_rbrace (w m : Bytes) (hm : 125 ∉ m) :
    payloadOf (w ++ m) = payloadOf w := by
  induction w with
  | nil =>
    have h := payloadOf_tail m [] hm (Or.inl rfl)
    simpa [payloadOf] using h
  | cons x xs ih =>
    by_cases h10 : x = 10
    · simp [payloadOf, h10]
    · simp [payloadOf, h10, ih]

/-- A marker and what follows it is left unread by every capture that starts
before it: the text up to its line feed holds no `}` and does not start with
`{`. -/
theorem unread_marker (t m y : Bytes) (hm : 125 ∉ m) (hhead : ∀ r, m ++ 10 :: y ≠ 123 :: r) :
    Unread t (m ++ 10 :: y) := by
  intro v _
  cases v with
  | nil =>
    cases hz : m ++ 10 :: y with
    | nil => simp
    | cons b r =>
      have : ¬ b = 123 := fun e => hhead r (by rw [hz, e])
      simp [payloadHere, this]
  | cons x w =>
    by_cases hx : x = 123
    · subst hx
      have e : w ++ (m ++ 10 :: y) = (w ++ m) ++ 10 :: y := by simp
      simp only [List.cons_append, payloadHere, if_true, e, payloadOf_append_lf,
        payloadOf_append_no_rbrace w m hm]
      cases payloadOf w <;> simp
    · simp [payloadHere, hx]

theorem unread_of_suffix {t u z : Bytes} (h : Unread t z) (hu : u <:+ t) : Unread u z :=
  fun v hv => h v (hv.trans hu)

theorem lineBreakHere_append (u z : Bytes) (hu : 10 ∈ u) (h : Unread u z) :
    (lineBreakHere (u ++ z)).map Prod.fst = (lineBreakHere u).map Prod.fst := by
  cases u with
  | nil => simp at hu
  | cons x v =>
    by_cases h13 : x = 13
    · subst h13
      cases v with
      | nil => simp at hu
      | cons y v' =>
        by_cases h10 : y = 10
        · subst h10
          simp only [List.cons_append, lineBreakHere, if_true]
          exact h v' ⟨[13, 10], rfl⟩
        · simp [lineBreakHere, h10]
    · by_cases h10 : x = 10
      · subst h10
        simp only [List.cons_append, lineBreakHere, if_neg h13, if_true]
        exact h v ⟨[10], rfl⟩
      · simp [lineBreakHere, h13, h10]

theorem not_lf_mem_version : 10 ∉ bytes ": SYNCMAP/1" := by decide

theorem not_lf_mem_begin : 10 ∉ bytes "BEGIN JIB JSON" := by decide

theorem mem_of_stripPrefix {l t r : Bytes} (h : stripPrefix l t = some r) (hl : 10 ∉ l)
    (ht : 10 ∈ t) : 10 ∈ r := by
  rw [stripPrefix_eq_some.1 h] at ht
  rcases List.mem_append.1 ht with e | e
  · exact absurd e hl
  · exact e

theorem versionHere_append (t z : Bytes) (ht : 10 ∈ t) (h : Unread t z) :
    (versionHere (t ++ z)).map Prod.fst = (versionHere t).map Prod.fst := by
  unfold versionHere
  rw [stripPrefix_append_right _ t z not_lf_mem_version ht]
  have h₁ := lineBreakHere_append t z ht h
  cases hs : stripPrefix (bytes ": SYNCMAP/1") t with
  | none => simpa using h₁
  | some u =>
    have hu : 10 ∈ u := mem_of_stripPrefix hs not_lf_mem_version ht
    have hsuf : u <:+ t := ⟨bytes ": SYNCMAP/1", (stripPrefix_eq_some.1 hs).symm⟩
    have h₂ := lineBreakHere_append u z hu (unread_of_suffix h hsuf)
    simp only [Option.map_some', Option.some_bind]
    cases ha : lineBreakHere (u ++ z) with
    | none =>
      rw [ha] at h₂
      cases hb : lineBreakHere u with
      | none => simpa using h₁
      | some pr => rw [hb] at h₂; simp at h₂
    | some pr =>
      rw [ha] at h₂
      cases hb : lineBreakHere u with
      | none => rw [hb] at h₂; simp at h₂
      | some pr' => rw [hb] at h₂; simpa using h₂

/-- An attempt at the start of `t` that has a line feed in `t` reads nothing of
an appended `z` that the captures of `t` leave unread. -/
theorem markerHere_append (t z : Bytes) (ht : 10 ∈ t) (h : Unread t z) :
    (markerHere (t ++ z)).map Prod.fst = (markerHere t).map Prod.fst := by
  unfold markerHere
  rw [stripPrefix_append_right _ t z not_lf_mem_begin ht]
  cases hs : stripPrefix (bytes "BEGIN JIB JSON") t with
  | none => simp
  | some u =>
    have hu : 10 ∈ u := mem_of_stripPrefix hs not_lf_mem_begin ht
    have hsuf : u <:+ t := ⟨bytes "BEGIN JIB JSON", (stripPrefix_eq_some.1 hs).symm⟩
    simpa using versionHere_append u z hu (unread_of_suffix h hsuf)

theorem firstLine_append (a b : Bytes) (h : 10 ∉ a) : firstLine (a ++ b) = a ++ firstLine b := by
  induction a with
  | nil => simp
  | cons x xs ih =>
    simp only [List.mem_cons, not_or] at h
    have hx : ¬ x = 10 := fun e => h.1 e.symm
    simp [firstLine, hx, ih h.2]

/-- An attempt that starts in a stretch without line feed right before a marker
line cannot end its own marker at the line break of that marker line. -/
theorem markerHere_straddle (t version nl w : Bytes) (ht : t ≠ []) (h10 : 10 ∉ t)
    (hv : version = [] ∨ version = bytes ": SYNCMAP/1") (hnl : nl = [10] ∨ nl = [13, 10]) :
    markerHere (t ++ (bytes "BEGIN JIB JSON" ++ version ++ nl ++ 123 :: w)) = none := by
  cases hm : markerHere (t ++ (bytes "BEGIN JIB JSON" ++ version ++ nl ++ 123 :: w)) with
  | none => rfl
  | some pr =>
    exfalso
    obtain ⟨v', nl', body', hs, hv', hnl', _, _⟩ := @markerHere_some _ pr.1 pr.2 hm
    have e := congrArg (fun l => (firstLine l).reverse) hs
    rcases hv with rfl | rfl <;> rcases hnl with rfl | rfl <;> rcases hv' with rfl | rfl <;>
      rcases hnl' with rfl | rfl
    all_goals
      simp [firstLine_append t _ h10, firstLine, bytes] at e
    all_goals exact ht e

theorem unread_marker_line (t version nl w : Bytes)
    (hv : version = [] ∨ version = bytes ": SYNCMAP/1") (hnl : nl = [10] ∨ nl = [13, 10]) :
    Unread t (bytes "BEGIN JIB JSON" ++ version ++ nl ++ 123 :: w) := by
  rcases hv with rfl | rfl <;> rcases hnl with rfl | rfl
  · have h := unread_marker t (bytes "BEGIN JIB JSON") (123 :: w) (by decide)
      (by intro r; simp [bytes])
    simpa using h
  · have h := unread_marker t (bytes "BEGIN JIB JSON" ++ [13]) (123 :: w) (by decide)
      (by intro r; simp [bytes])
    simpa using h
  · have h := unread_marker t (bytes "BEGIN JIB JSON" ++ bytes ": SYNCMAP/1") (123 :: w) (by decide)
      (by intro r; simp [bytes])
    simpa using h
  · have h := unread_marker t (bytes "BEGIN JIB JSON" ++ bytes ": SYNCMAP/1" ++ [13]) (123 :: w)
      (by decide) (by intro r; simp [bytes])
    simpa using h

/-- A prefix without a marker line is skipped: no attempt that starts in it
succeeds on the output that continues with a marker line. -/
theorem markerFind_skip_head (pre version nl w : Bytes) (hno : markerFind pre = none)
    (hv : version = [] ∨ version = bytes ": SYNCMAP/1") (hnl : nl = [10] ∨ nl = [13, 10]) :
    markerFind (pre ++ (bytes "BEGIN JIB JSON" ++ version ++ nl ++ 123 :: w)) =
      markerFind (bytes "BEGIN JIB JSON" ++ version ++ nl ++ 123 :: w) := by
  induction pre with
  | nil => simp
  | cons x xs ih =>
    rw [markerFind_cons] at hno
    cases hm : (markerHere (x :: xs)).map Prod.fst with
    | some q => rw [hm] at hno; simp at hno
    | none =>
      rw [hm] at hno
      replace hno : markerFind xs = none := by simpa using hno
      have hh : (markerHere ((x :: xs) ++ (bytes "BEGIN JIB JSON" ++ version ++ nl ++ 123 :: w))).map
          Prod.fst = none := by
        by_cases hmem : 10 ∈ x :: xs
        · rw [markerHere_append (x :: xs) _ hmem (unread_marker_line _ version nl w hv hnl), hm]
        · rw [markerHere_straddle (x :: xs) version nl w (by simp) hmem hv hnl]
          rfl
      rw [List.cons_append, markerFind_cons]
      rw [List.cons_append] at hh
      rw [hh]
      simpa using ih hno

/-- The payload of the first marker line of an output: the bytes from `{` to
the last `}` of the next line. -/
theorem markerFind_marker_line (pre version nl body tail rest : Bytes)
    (hno : markerFind pre = none)
    (hv : version = [] ∨ version = bytes ": SYNCMAP/1") (hnl : nl = [10] ∨ nl = [13, 10])
    (hbody : 10 ∉ body) (htail : 125 ∉ tail) (hrest : AtLineEnd rest) :
    markerFind (pre ++ (bytes "BEGIN JIB JSON" ++ version ++ nl ++
        123 :: (body ++ 125 :: (tail ++ rest)))) = some (123 :: (body ++ [125])) := by
  rw [markerFind_skip_head pre version nl _ hno hv hnl]
  have h := markerHere_marker version nl (body ++ 125 :: (tail ++ rest)) hv hnl
  rw [payloadOf_line body tail rest hbody htail hrest] at h
  rw [markerFind_of_here h]

/-! ### Go maps -/

theorem find?_filter_ne (ps : SyncMap) (k k' : Bytes) (h : ¬ k' = k) :
    (ps.filter (fun p => p.1 ≠ k)).find? (fun p => p.1 = k') = ps.find? (fun p => p.1 = k') := by
  induction ps with
  | nil => rfl
  | cons p ps ih =>
    by_cases hp : p.1 = k
    · have hp' : ¬ p.1 = k' := fun e => h (e.symm.trans hp)
      have e₁ : decide (p.1 ≠ k) = false := by simp [hp]
      have e₂ : decide (p.1 = k') = false := by simp [hp']
      rw [List.filter_cons, e₁, List.find?_cons, e₂]
      simpa using ih
    · have e₁ : decide (p.1 ≠ k) = true := by simp [hp]
      rw [List.filter_cons, e₁]
      by_cases hp' : p.1 = k'
      · have e₂ : decide (p.1 = k') = true := by simp [hp']
        simp only [if_true, List.find?_cons, e₂]
      · have e₂ : decide (p.1 = k') = false := by simp [hp']
        simp only [if_true, List.find?_cons, e₂]
        exact ih

theorem SyncMap.get?_set (sm : SyncMap) (k k' : Bytes) (v : SyncEntry) :
    (sm.set k v).get? k' = if k' = k then some v else sm.get? k' := by
  unfold SyncMap.set SyncMap.get?
  by_cases h : k' = k
  · subst h
    simp
  · have hk : decide (k = k') = false := by simp; exact fun e => h e.symm
    rw [List.find?_cons, hk, if_neg h, find?_filter_ne sm k k' h]

theorem SyncMap.mem_keys_set (sm : SyncMap) (k k' : Bytes) (v : SyncEntry) :
    k' ∈ (sm.set k v).keys ↔ k' = k ∨ k' ∈ sm.keys := by
  unfold SyncMap.set SyncMap.keys
  simp only [List.map_cons, List.mem_cons, List.mem_map, List.mem_filter]
  constructor
  · rintro (h | ⟨p, ⟨hp, _⟩, rfl⟩)
    · exact Or.inl h
    · exact Or.inr ⟨p, hp, rfl⟩
  · rintro (h | ⟨p, hp, rfl⟩)
    · exact Or.inl h
    · by_cases e : p.1 = k
      · exact Or.inl e
      · exact Or.inr ⟨p, ⟨hp, by simpa using e⟩, rfl⟩

theorem SyncMap.nodup_keys_set (sm : SyncMap) (k : Bytes) (v : SyncEntry)
    (h : sm.keys.Nodup) : (sm.set k v).keys.Nodup := by
  unfold SyncMap.set SyncMap.keys at *
  simp only [List.map_cons, List.nodup_cons, List.mem_map, List.mem_filter]
  constructor
  · rintro ⟨p, ⟨_, hp⟩, e⟩
    simp [e] at hp
  · exact (List.Nodup.sublist (List.Sublist.map _ (List.filter_sublist sm)) h)

theorem SyncMap.mem_keys_iff (sm : SyncMap) (k : Bytes) :
    k ∈ sm.keys ↔ ∃ e, sm.get? k = some e := by
  unfold SyncMap.keys SyncMap.get?
  induction sm with
  | nil => simp
  | cons p ps ih =>
    by_cases h : p.1 = k
    · simp [h]
    · have h' : ¬ k = p.1 := fun e => h e.symm
      simp only [List.map_cons, List.mem_cons, h', false_or, List.find?_cons, h, decide_False]
      exact ih

/-! ### `addEntries` -/

theorem addEntries_nil (env : Env) (sm : SyncMap) (d : Bool) :
    SyncMap.addEntries env sm [] d = ⟨sm, none, []⟩ := rfl

theorem addEntries_cons_ok (env : Env) (sm : SyncMap) (e : JSONSyncEntry) (es : List JSONSyncEntry)
    (d : Bool) (info : FileInfo) (h : env.Stat e.Src = Except.ok info) :
    SyncMap.addEntries env sm (e :: es) d =
      ⟨(SyncMap.addEntries env (sm.set e.Src ⟨[e.Dest], info.ModTime, d⟩) es d).sm,
        (SyncMap.addEntries env (sm.set e.Src ⟨[e.Dest], info.ModTime, d⟩) es d).err,
        Call.stat e.Src ::
          (SyncMap.addEntries env (sm.set e.Src ⟨[e.Dest], info.ModTime, d⟩) es d).calls⟩ := by
  simp only [SyncMap.addEntries, h]

theorem addEntries_cons_error (env : Env) (sm : SyncMap) (e : JSONSyncEntry)
    (es : List JSONSyncEntry) (d : Bool) (c : Error) (h : env.Stat e.Src = Except.error c) :
    SyncMap.addEntries env sm (e :: es) d =
      ⟨sm, some (errorsWrap c (bytes "could not obtain file mod time for " ++ e.Src)),
        [Call.stat e.Src]⟩ := by
  simp only [SyncMap.addEntries, h]

theorem allStat_cons {env : Env} {e : JSONSyncEntry} {es : List JSONSyncEntry}
    (h : AllStat env (e :: es)) : (∃ info, env.Stat e.Src = Except.ok info) ∧ AllStat env es :=
  ⟨h e (List.mem_cons_self _ _), fun w hw => h w (List.mem_cons_of_mem _ hw)⟩

theorem statTime_eq {env : Env} {k : Bytes} {info : FileInfo} (h : env.Stat k = Except.ok info) :
    statTime env k = info.ModTime := by
  simp [statTime, h]

theorem addEntries_ok (env : Env) (sm : SyncMap) (es : List JSONSyncEntry) (d : Bool)
    (h : AllStat env es) :
    (SyncMap.addEntries env sm es d).err = none ∧
      (SyncMap.addEntries env sm es d).calls = es.map (fun e => Call.stat e.Src) := by
  induction es generalizing sm with
  | nil => exact ⟨rfl, rfl⟩
  | cons e es ih =>
    obtain ⟨⟨info, hi⟩, hes⟩ := allStat_cons h
    rw [addEntries_cons_ok env sm e es d info hi]
    obtain ⟨h₁, h₂⟩ := ih (sm.set e.Src ⟨[e.Dest], info.ModTime, d⟩) hes
    exact ⟨h₁, by simp [h₂]⟩

theorem lastWithSrc_cons (e : JSONSyncEntry) (es : List JSONSyncEntry) (k : Bytes) :
    lastWithSrc (e :: es) k =
      match lastWithSrc es k with
      | some w => some w
      | none => if e.Src = k then some e else none := by
  unfold lastWithSrc
  rw [List.reverse_cons, List.find?_append]
  cases List.find? (fun w => decide (w.Src = k)) es.reverse with
  | some w => rfl
  | none =>
    by_cases h : e.Src = k
    · simp [h]
    · simp [h]

theorem addEntries_get? (env : Env) (sm : SyncMap) (es : List JSONSyncEntry) (d : Bool)
    (h : AllStat env es) (k : Bytes) :
    (SyncMap.addEntries env sm es d).sm.get? k =
      match lastWithSrc es k with
      | some w => some ⟨[w.Dest], statTime env k, d⟩
      | none => sm.get? k := by
  induction es generalizing sm with
  | nil => rfl
  | cons e es ih =>
    obtain ⟨⟨info, hi⟩, hes⟩ := allStat_cons h
    rw [addEntries_cons_ok env sm e es d info hi]
    simp only []
    rw [ih _ hes, lastWithSrc_cons]
    cases lastWithSrc es k with
    | some w => rfl
    | none =>
      simp only [SyncMap.get?_set]
      by_cases hk : e.Src = k
      · subst hk
        simp [statTime_eq hi]
      · have hk' : ¬ k = e.Src := fun e' => hk e'.symm
        simp [hk, hk']

theorem addEntries_keys (env : Env) (sm : SyncMap) (es : List JSONSyncEntry) (d : Bool)
    (h : AllStat env es) (hn : sm.keys.Nodup) :
    (SyncMap.addEntries env sm es d).sm.keys.Nodup ∧
      ∀ k, k ∈ (SyncMap.addEntries env sm es d).sm.keys ↔
        k ∈ es.map JSONSyncEntry.Src ∨ k ∈ sm.keys := by
  induction es generalizing sm with
  | nil => exact ⟨hn, by simp [addEntries_nil]⟩
  | cons e es ih =>
    obtain ⟨⟨info, hi⟩, hes⟩ := allStat_cons h
    rw [addEntries_cons_ok env sm e es d info hi]
    obtain ⟨h₁, h₂⟩ := ih (sm.set e.Src ⟨[e.Dest], info.ModTime, d⟩) hes
      (SyncMap.nodup_keys_set sm _ _ hn)
    refine ⟨h₁, fun k => ?_⟩
    simp only [] at h₂ ⊢
    rw [h₂ k, SyncMap.mem_keys_set]
    simp only [List.map_cons, List.mem_cons]
    tauto

theorem addEntries_fail (env : Env) (sm : SyncMap) (a b : List JSONSyncEntry) (w : JSONSyncEntry)
    (d : Bool) (c : Error) (ha : AllStat env a) (hw : env.Stat w.Src = Except.error c) :
    SyncMap.addEntries env sm (a ++ w :: b) d =
      ⟨(SyncMap.addEntries env sm a d).sm,
        some (errorsWrap c (bytes "could not obtain file mod time for " ++ w.Src)),
        (a ++ [w]).map (fun e => Call.stat e.Src)⟩ := by
  induction a generalizing sm with
  | nil => rw [List.nil_append, addEntries_cons_error env sm w b d c hw]; rfl
  | cons e es ih =>
    obtain ⟨⟨info, hi⟩, hes⟩ := allStat_cons ha
    rw [List.cons_append, addEntries_cons_ok env sm _ _ d info hi,
      addEntries_cons_ok env sm e es d info hi, ih _ hes]
    simp

theorem markerFind_of_FindSubmatch {out whole payload : Bytes}
    (h : markerRegex.FindSubmatch out = [whole, payload]) : markerFind out = some payload := by
  rcases FindSubmatch_markerRegex out with ⟨_, h₂⟩ | ⟨w, p, h₁, h₂⟩
  · rw [h₂] at h; cases h
  · rw [h₂] at h
    have : p = payload := by simpa using (List.cons.inj h).2
    rw [h₁, this]

theorem allStat_append {env : Env} {a b : List JSONSyncEntry} :
    AllStat env (a ++ b) ↔ AllStat env a ∧ AllStat env b := by
  unfold AllStat
  simp only [List.mem_append]
  constructor
  · intro h
    exact ⟨fun e he => h e (Or.inl he), fun e he => h e (Or.inr he)⟩
  · rintro ⟨h₁, h₂⟩ e (he | he)
    · exact h₁ e he
    · exact h₂ e he

/-- The result of a successful extraction. -/
theorem getSyncMapFromSystem_ok (env : Env) (cmd : Cmd) (out whole payload : Bytes)
    (jsm : JSONSyncMap) (hrun : env.RunCmdOut cmd = Except.ok out)
    (hfind : markerRegex.FindSubmatch out = [whole, payload])
    (hdec : env.Unmarshal (normalizePayload payload) = Except.ok jsm)
    (hstat : AllStat env jsm.entries) :
    getSyncMapFromSystem env cmd =
      ⟨some (SyncMap.addEntries env
          (SyncMap.addEntries env SyncMap.empty jsm.Direct true).sm jsm.Generated false).sm,
        none,
        Call.unmarshal (normalizePayload payload) ::
          jsm.entries.map (fun e => Call.stat e.Src)⟩ := by
  obtain ⟨hd, hg⟩ := allStat_append.1 hstat
  rw [getSyncMapFromSystem_found env cmd out payload hrun (markerFind_of_FindSubmatch hfind), hdec]
  obtain ⟨e₁, c₁⟩ := addEntries_ok env SyncMap.empty jsm.Direct true hd
  obtain ⟨e₂, c₂⟩ := addEntries_ok env
    (SyncMap.addEntries env SyncMap.empty jsm.Direct true).sm jsm.Generated false hg
  simp only [buildSyncMap, e₁, e₂, c₁, c₂, JSONSyncMap.entries, List.map_append]

theorem lastWithSrc_eq_none {es : List JSONSyncEntry} {k : Bytes} :
    lastWithSrc es k = none ↔ k ∉ es.map JSONSyncEntry.Src := by
  unfold lastWithSrc
  simp only [List.find?_eq_none, List.mem_reverse, decide_eq_true_eq, List.mem_map, not_exists,
    not_and]

theorem lastWithSrc_append (a b : List JSONSyncEntry) (k : Bytes) :
    lastWithSrc (a ++ b) k =
      match lastWithSrc b k with
      | some w => some w
      | none => lastWithSrc a k := by
  unfold lastWithSrc
  rw [List.reverse_append, List.find?_append]
  cases List.find? (fun w => decide (w.Src = k)) b.reverse <;> rfl

/-- Map read on the map of a successful extraction. -/
theorem final_get? (env : Env) (jsm : JSONSyncMap) (hstat : AllStat env jsm.entries) (k : Bytes) :
    (SyncMap.addEntries env
        (SyncMap.addEntries env SyncMap.empty jsm.Direct true).sm jsm.Generated false).sm.get? k =
      match lastWithSrc jsm.Generated k with
      | some w => some ⟨[w.Dest], statTime env k, false⟩
      | none =>
        match lastWithSrc jsm.Direct k with
        | some w => some ⟨[w.Dest], statTime env k, true⟩
        | none => none := by
  obtain ⟨hd, hg⟩ := allStat_append.1 hstat
  rw [addEntries_get? env _ jsm.Generated false hg k, addEntries_get? env _ jsm.Direct true hd k]
  rfl

theorem buildSyncMap_fail (env : Env) (line : Bytes) (jsm : JSONSyncMap)
    (a b : List JSONSyncEntry) (w : JSONSyncEntry) (cause : Error)
    (hsplit : jsm.entries = a ++ w :: b) (ha : AllStat env a)
    (hw : env.Stat w.Src = Except.error cause) :
    buildSyncMap env line jsm =
      ⟨none, some (bytes "could not obtain file mod time for " ++ w.Src ++ bytes ": " ++ cause),
        Call.unmarshal line :: (a ++ [w]).map (fun e => Call.stat e.Src)⟩ := by
  obtain ⟨D, G⟩ := jsm
  simp only [JSONSyncMap.entries] at hsplit
  rcases List.append_eq_append_iff.1 hsplit with ⟨a', h₁, h₂⟩ | ⟨c', h₁, h₂⟩
  · subst h₁ h₂
    obtain ⟨hd, ha'⟩ := allStat_append.1 ha
    obtain ⟨e₁, c₁⟩ := addEntries_ok env SyncMap.empty D true hd
    simp only [buildSyncMap, e₁, c₁, addEntries_fail env _ a' b w false cause ha' hw]
    simp [errorsWithStack, errorsWrap]
  · cases c' with
    | nil =>
      simp only [List.append_nil] at h₁
      simp only [List.nil_append] at h₂
      subst h₁ h₂
      obtain ⟨e₁, c₁⟩ := addEntries_ok env SyncMap.empty D true ha
      have hf := addEntries_fail env (SyncMap.addEntries env SyncMap.empty D true).sm [] b w false
        cause (fun _ h => absurd h (List.not_mem_nil _)) hw
      simp only [List.nil_append] at hf
      simp only [buildSyncMap, e₁, c₁, hf]
      simp [errorsWithStack, errorsWrap]
    | cons x c'' =>
      have hx : w = x := (List.cons.inj h₂).1
      subst hx h₁
      simp only [buildSyncMap, addEntries_fail env _ a c'' w true cause ha hw]
      simp [errorsWithStack, errorsWrap]

theorem lastWithSrc_some {es : List JSONSyncEntry} {k : Bytes} {w : JSONSyncEntry}
    (h : lastWithSrc es k = some w) : w ∈ es ∧ w.Src = k := by
  unfold lastWithSrc at h
  have h₁ := List.mem_of_find?_eq_some h
  have h₂ := List.find?_some h
  exact ⟨List.mem_reverse.1 h₁, by simpa using h₂⟩

theorem exampleSystem_allStat :
    AllStat (exampleSystem [(bytes "/a/A.txt", 7), (bytes "/a/B.java", 9)]) exampleDecoded.entries := by
  intro e he
  have h : e = ⟨bytes "/a/A.txt", bytes "/app/A.txt"⟩ ∨ e = ⟨bytes "/a/B.java", bytes "/app/B.java"⟩ ∨
      e = ⟨bytes "/a/B.java", bytes "/app/B.class"⟩ := by
    simpa [exampleDecoded, JSONSyncMap.entries] using he
  rcases h with rfl | rfl | rfl
  · exact ⟨⟨7⟩, rfl⟩
  · exact ⟨⟨9⟩, rfl⟩
  · exact ⟨⟨9⟩, rfl⟩

/-! ### The payload normaliser -/

theorem normalizePayload_nil : normalizePayload [] = [] := rfl

theorem normalizePayload_cons (x : Nat) (xs : Bytes) :
    normalizePayload (x :: xs) = doubleBackslash x ++ normalizePayload xs := by
  unfold normalizePayload bytesReplace doubleBackslash
  by_cases h : x = 92
  · subst h
    simp [replaceLoop]
  · have h' : ¬ 92 = x := fun e => h e.symm
    simp [replaceLoop, h, h']

theorem normalizePayload_eq (s : Bytes) :
    normalizePayload s = (s.map doubleBackslash).flatten := by
  induction s with
  | nil => rfl
  | cons x xs ih => rw [normalizePayload_cons, ih]; rfl

theorem collapse_normalize (s : Bytes) : collapseBackslashes (normalizePayload s) = s := by
  induction s with
  | nil => rfl
  | cons x xs ih =>
    rw [normalizePayload_cons]
    by_cases h : x = 92
    · subst h
      simp [doubleBackslash, collapseBackslashes, ih]
    · simp only [doubleBackslash, if_neg h, List.singleton_append]
      cases hn : normalizePayload xs with
      | nil =>
        rw [hn] at ih
        simp [collapseBackslashes] at ih ⊢
        exact ih
      | cons y ys =>
        rw [hn] at ih
        simp [collapseBackslashes, h, ih]

/-! ### JSON string literals -/

theorem rune_decode {u : Bytes} (h : Rune u) (v : Bytes) :
    utf8EncodeRune (utf8DecodeRune (u ++ v)).1 = u ∧ (utf8DecodeRune (u ++ v)).2 = u.length := by
  cases h with
  | two b0 b1 h1 h2 h3 h4 =>
    have hf : utf8First b0 = some (2, 0x80, 0xBF) := by simp [utf8First, h1, h2]
    have e : utf8DecodeRune ([b0, b1] ++ v) = ((b0 % 32) * 64 + b1 % 64, 2) := by
      simp only [List.cons_append, List.nil_append, utf8DecodeRune, hf]
      rw [if_neg (by omega), if_neg (by simp), if_neg (by omega), if_pos (le_refl _)]
    rw [e]
    refine ⟨?_, rfl⟩
    simp only [utf8EncodeRune]
    rw [if_neg (by omega), if_pos (by omega)]
    congr 1
    · omega
    · congr 1; omega
  | three b0 b1 b2 h1 h2 h3 =>
    have e : utf8DecodeRune ([b0, b1, b2] ++ v) =
        ((b0 % 16) * 4096 + (b1 % 64) * 64 + b2 % 64, 3) := by
      rcases h1 with ⟨a, b, c⟩ | ⟨a, a', b, c⟩ | ⟨a, b, c⟩ | ⟨a, a', b, c⟩
      · have hf : utf8First b0 = some (3, 0xA0, 0xBF) := by simp [utf8First, a]
        simp only [List.cons_append, List.nil_append, utf8DecodeRune, hf]
        rw [if_neg (by omega), if_neg (by simp), if_neg (by omega), if_neg (by omega),
          if_neg (by omega), if_pos (le_refl _)]
      · have hf : utf8First b0 = some (3, 0x80, 0xBF) := by
          simp only [utf8First]
          rw [if_neg (by omega), if_neg (by omega), if_pos ⟨a, a'⟩]
        simp only [List.cons_append, List.nil_append, utf8DecodeRune, hf]
        rw [if_neg (by omega), if_neg (by simp), if_neg (by omega), if_neg (by omega),
          if_neg (by omega), if_pos (le_refl _)]
      · have hf : utf8First b0 = some (3, 0x80, 0x9F) := by simp [utf8First, a]
        simp only [List.cons_append, List.nil_append, utf8DecodeRune, hf]
        rw [if_neg (by omega), if_neg (by simp), if_neg (by omega), if_neg (by omega),
          if_neg (by omega), if_pos (le_refl _)]
      · have hf : utf8First b0 = some (3, 0x80, 0xBF) := by
          simp only [utf8First]
          rw [if_neg (by omega), if_neg (by omega), if_neg (by omega), if_neg (by omega),
            if_pos ⟨a, a'⟩]
        simp only [List.cons_append, List.nil_append, utf8DecodeRune, hf]
        rw [if_neg (by omega), if_neg (by simp), if_neg (by omega), if_neg (by omega),
          if_neg (by omega), if_pos (le_refl _)]
    rw [e]
    refine ⟨?_, rfl⟩
    simp only [utf8EncodeRune]
    rw [if_neg (by omega), if_neg (by omega), if_neg (by omega), if_pos (by omega)]
    congr 1
    · omega
    · congr 1
      · omega
      · congr 1; omega
  | four b0 b1 b2 b3 h1 h2 h3 h4 h5 =>
    have e : utf8DecodeRune ([b0, b1, b2, b3] ++ v) =
        ((b0 % 8) * 262144 + (b1 % 64) * 4096 + (b2 % 64) * 64 + b3 % 64, 4) := by
      rcases h1 with ⟨a, b, c⟩ | ⟨a, a', b, c⟩ | ⟨a, b, c⟩
      · have hf : utf8First b0 = some (4, 0x90, 0xBF) := by simp [utf8First, a]
        simp only [List.cons_append, List.nil_append, utf8DecodeRune, hf]
        rw [if_neg (by omega), if_neg (by simp), if_neg (by omega), if_neg (by omega),
          if_neg (by omega), if_neg (by omega), if_neg (by omega)]
      · have hf : utf8First b0 = some (4, 0x80, 0xBF) := by
          simp only [utf8First]
          rw [if_neg (by omega), if_neg (by omega), if_neg (by omega), if_neg (by omega),
            if_neg (by omega), if_neg (by omega), if_pos ⟨a, a'⟩]
        simp only [List.cons_append, List.nil_append, utf8DecodeRune, hf]
        rw [if_neg (by omega), if_neg (by simp), if_neg (by omega), if_neg (by omega),
          if_neg (by omega), if_neg (by omega), if_neg (by omega)]
      · have hf : utf8First b0 = some (4, 0x80, 0x8F) := by simp [utf8First, a]
        simp only [List.cons_append, List.nil_append, utf8DecodeRune, hf]
        rw [if_neg (by omega), if_neg (by simp), if_neg (by omega), if_neg (by omega),
          if_neg (by omega), if_neg (by omega), if_neg (by omega)]
    rw [e]
    refine ⟨?_, rfl⟩
    simp only [utf8EncodeRune]
    rw [if_neg (by omega), if_neg (by omega), if_neg (by omega), if_neg (by omega)]
    congr 1
    · omega
    · congr 1
      · omega
      · congr 1
        · omega
        · congr 1; omega

theorem rune_bytes {u : Bytes} (h : Rune u) :
    2 ≤ u.length ∧ (∀ b ∈ u, 0x80 ≤ b) ∧ ∃ b0 rest, u = b0 :: rest := by
  cases h with
  | two b0 b1 h1 h2 h3 h4 =>
    refine ⟨by simp, ?_, b0, _, rfl⟩
    intro b hb
    simp only [List.mem_cons, List.mem_singleton, List.not_mem_nil, or_false] at hb
    rcases hb with rfl | rfl <;> omega
  | three b0 b1 b2 h1 h2 h3 =>
    refine ⟨by simp, ?_, b0, _, rfl⟩
    intro b hb
    simp only [List.mem_cons, List.mem_singleton, List.not_mem_nil, or_false] at hb
    rcases hb with rfl | rfl | rfl <;> omega
  | four b0 b1 b2 b3 h1 h2 h3 h4 h5 =>
    refine ⟨by simp, ?_, b0, _, rfl⟩
    intro b hb
    simp only [List.mem_cons, List.mem_singleton, List.not_mem_nil, or_false] at hb
    rcases hb with rfl | rfl | rfl | rfl <;> omega

theorem normalizePayload_append (a b : Bytes) :
    normalizePayload (a ++ b) = normalizePayload a ++ normalizePayload b := by
  induction a with
  | nil => rfl
  | cons x xs ih => rw [List.cons_append, normalizePayload_cons, normalizePayload_cons, ih,
      List.append_assoc]

theorem normalizePayload_of_no_backslash (a : Bytes) (h : ∀ b ∈ a, b ≠ 92) :
    normalizePayload a = a := by
  induction a with
  | nil => rfl
  | cons x xs ih =>
    have hx : x ≠ 92 := h x (List.mem_cons_self _ _)
    rw [normalizePayload_cons, ih (fun b hb => h b (List.mem_cons_of_mem _ hb))]
    simp [doubleBackslash, hx]

theorem normalizePayload_rune {u : Bytes} (h : Rune u) (v : Bytes) :
    normalizePayload (u ++ v) = u ++ normalizePayload v := by
  rw [normalizePayload_append, normalizePayload_of_no_backslash u]
  intro b hb
  have := (rune_bytes h).2.1 b hb
  omega

theorem unquoteLoop_skip (xs ys : Bytes) :
    unquoteLoop xs.length (xs ++ ys) = unquoteLoop 0 ys := by
  induction xs with
  | nil => rfl
  | cons x xs ih => simpa [unquoteLoop] using ih

theorem plainLen_skip (xs ys : Bytes) :
    plainLen xs.length (xs ++ ys) = xs.length + plainLen 0 ys := by
  induction xs with
  | nil => simp
  | cons x xs ih =>
    have e : plainLen (xs.length + 1) (x :: (xs ++ ys)) = 1 + plainLen xs.length (xs ++ ys) := rfl
    rw [List.length_cons, List.cons_append, e, ih]
    omega

theorem unquoteLoop_rune {u : Bytes} (h : Rune u) (t : Bytes) :
    unquoteLoop 0 (u ++ t) = (unquoteLoop 0 t).map (fun r => u ++ r) := by
  obtain ⟨hlen, hge, b0, rest, rfl⟩ := rune_bytes h
  obtain ⟨he, hs⟩ := rune_decode h t
  have h0 : 0x80 ≤ b0 := hge b0 (List.mem_cons_self _ _)
  have hstep : unquoteStep b0 (rest ++ t) = some (b0 :: rest, (b0 :: rest).length) := by
    simp only [unquoteStep]
    rw [if_neg (by omega), if_neg (by omega), if_neg (by omega)]
    rw [List.cons_append] at he hs
    rw [he, hs]
  rw [List.cons_append]
  simp only [unquoteLoop, hstep]
  have e : (b0 :: rest).length - 1 = rest.length := by simp
  rw [e, unquoteLoop_skip]

theorem plainLen_rune {u : Bytes} (h : Rune u) (t : Bytes) :
    plainLen 0 (u ++ t) = u.length + plainLen 0 t := by
  obtain ⟨hlen, hge, b0, rest, rfl⟩ := rune_bytes h
  obtain ⟨_, hs⟩ := rune_decode h t
  have h0 : 0x80 ≤ b0 := hge b0 (List.mem_cons_self _ _)
  rw [List.cons_append] at hs ⊢
  simp only [plainLen]
  have hne : ¬ ((utf8DecodeRune (b0 :: (rest ++ t))).1 = runeError ∧
      (utf8DecodeRune (b0 :: (rest ++ t))).2 = 1) := by
    rw [hs]
    intro hc
    omega
  rw [if_neg (by omega), if_neg (by omega), if_neg hne, hs]
  have e : (b0 :: rest).length - 1 = rest.length := by simp
  rw [e, plainLen_skip]
  simp only [List.length_cons]
  omega

theorem unquoteBody_cons_plain (b : Nat) (t : Bytes) (h1 : 32 ≤ b) (h2 : b < 0x80)
    (h3 : b ≠ 34) (h4 : b ≠ 92) :
    unquoteBody (b :: t) = (unquoteBody t).map (fun r => b :: r) := by
  have hp : plainLen 0 (b :: t) = 1 + plainLen 0 t := by
    simp only [plainLen]
    rw [if_neg (by omega), if_pos h2]
  unfold unquoteBody
  rw [hp]
  by_cases he : plainLen 0 t = t.length
  · have : 1 + plainLen 0 t = (b :: t).length := by simp [he]; omega
    rw [if_pos this, if_pos he]
    rfl
  · have : ¬ 1 + plainLen 0 t = (b :: t).length := by
      simp only [List.length_cons]; omega
    rw [if_neg this, if_neg he]
    have e₁ : List.drop (1 + plainLen 0 t) (b :: t) = List.drop (plainLen 0 t) t := by
      rw [Nat.add_comm]; rfl
    have e₂ : List.take (1 + plainLen 0 t) (b :: t) = b :: List.take (plainLen 0 t) t := by
      rw [Nat.add_comm]; rfl
    rw [e₁, e₂]
    cases unquoteLoop 0 (List.drop (plainLen 0 t) t) <;> simp

theorem unquoteBody_rune {u : Bytes} (h : Rune u) (t : Bytes) :
    unquoteBody (u ++ t) = (unquoteBody t).map (fun r => u ++ r) := by
  unfold unquoteBody
  rw [plainLen_rune h]
  by_cases he : plainLen 0 t = t.length
  · have : u.length + plainLen 0 t = (u ++ t).length := by simp [he]
    rw [if_pos this, if_pos he]
    rfl
  · have : ¬ u.length + plainLen 0 t = (u ++ t).length := by
      simp only [List.length_append]; omega
    rw [if_neg this, if_neg he]
    have e₁ : List.drop (u.length + plainLen 0 t) (u ++ t) = List.drop (plainLen 0 t) t := by
      rw [List.drop_append]
    have e₂ : List.take (u.length + plainLen 0 t) (u ++ t) = u ++ List.take (plainLen 0 t) t := by
      rw [List.take_append]
    rw [e₁, e₂]
    cases unquoteLoop 0 (List.drop (plainLen 0 t) t) <;> simp

theorem unquoteBytes_quoted (s : Bytes) : unquoteBytes (34 :: (s ++ [34])) = unquoteBody s := by
  unfold unquoteBytes
  have hlast : (34 :: (s ++ [34])).getLast? = some 34 := by
    rw [← List.cons_append, List.getLast?_append_cons]
    rfl
  have h1 : ¬ ((34 :: (s ++ [34])).length < 2 ∨ (34 :: (s ++ [34])).head? ≠ some 34 ∨
      (34 :: (s ++ [34])).getLast? ≠ some 34) := by
    simp [hlast]
  rw [if_neg h1]
  congr 1
  simp

theorem unquoteLoop_cons_plain (b : Nat) (t : Bytes) (h1 : 32 ≤ b) (h2 : b < 0x80)
    (h3 : b ≠ 34) (h4 : b ≠ 92) :
    unquoteLoop 0 (b :: t) = (unquoteLoop 0 t).map (fun r => b :: r) := by
  have hstep : unquoteStep b t = some ([b], 1) := by
    simp only [unquoteStep]
    rw [if_neg h4, if_neg (by omega), if_pos h2]
  simp only [unquoteLoop, hstep]
  rfl

theorem unquoteLoop_cons_bad (b : Nat) (t : Bytes) (h : b < 32 ∨ b = 34) :
    unquoteLoop 0 (b :: t) = none := by
  have hstep : unquoteStep b t = none := by
    simp only [unquoteStep]
    rw [if_neg (by omega), if_pos (by omega)]
  simp only [unquoteLoop, hstep]

theorem unquoteLoop_backslashes (t : Bytes) :
    unquoteLoop 0 (92 :: 92 :: t) = (unquoteLoop 0 t).map (fun r => 92 :: r) := by
  simp [unquoteLoop, unquoteStep]

theorem unquoteBody_cons_bad (b : Nat) (t : Bytes) (h : b < 32 ∨ b = 34) :
    unquoteBody (b :: t) = none := by
  have hp : plainLen 0 (b :: t) = 0 := by
    simp only [plainLen]
    rw [if_pos (by omega)]
  unfold unquoteBody
  rw [hp, if_neg (by simp)]
  simp [unquoteLoop_cons_bad b t h]

theorem unquoteBody_backslashes (t : Bytes) :
    unquoteBody (92 :: 92 :: t) = (unquoteLoop 0 t).map (fun r => 92 :: r) := by
  have hp : plainLen 0 (92 :: 92 :: t) = 0 := by simp [plainLen]
  unfold unquoteBody
  rw [hp, if_neg (by simp)]
  simp only [List.drop_zero, List.take_zero, List.nil_append, unquoteLoop_backslashes]
  cases unquoteLoop 0 t <;> rfl

theorem normalizePayload_cons_backslash (v : Bytes) :
    normalizePayload (92 :: v) = 92 :: 92 :: normalizePayload v := by
  rw [normalizePayload_cons]; rfl

theorem normalizePayload_cons_other (b : Nat) (v : Bytes) (h : b ≠ 92) :
    normalizePayload (b :: v) = b :: normalizePayload v := by
  rw [normalizePayload_cons]; simp [doubleBackslash, h]

/-- What the second loop of `unquoteBytes` returns on a normalised well-formed
text is that text. -/
theorem unquoteLoop_normalize_eq {v : Bytes} (h : WellFormedUTF8 v) (d : Bytes)
    (hd : unquoteLoop 0 (normalizePayload v) = some d) : d = v := by
  induction h generalizing d with
  | nil =>
    have : unquoteLoop 0 (normalizePayload []) = some [] := rfl
    rw [this] at hd
    exact (Option.some.inj hd).symm
  | ascii b v h2 _ ih =>
    by_cases hb : b = 92
    · subst hb
      rw [normalizePayload_cons_backslash, unquoteLoop_backslashes] at hd
      cases hl : unquoteLoop 0 (normalizePayload v) with
      | none => rw [hl] at hd; cases hd
      | some d' =>
        rw [hl] at hd
        rw [← Option.some.inj hd, ih d' hl]
    · rw [normalizePayload_cons_other b v hb] at hd
      by_cases hbad : b < 32 ∨ b = 34
      · rw [unquoteLoop_cons_bad b _ hbad] at hd
        cases hd
      · rw [unquoteLoop_cons_plain b _ (by omega) h2 (by omega) hb] at hd
        cases hl : unquoteLoop 0 (normalizePayload v) with
        | none => rw [hl] at hd; cases hd
        | some d' =>
          rw [hl] at hd
          rw [← Option.some.inj hd, ih d' hl]
  | rune u v hu _ ih =>
    rw [normalizePayload_rune hu, unquoteLoop_rune hu] at hd
    cases hl : unquoteLoop 0 (normalizePayload v) with
    | none => rw [hl] at hd; cases hd
    | some d' =>
      rw [hl] at hd
      rw [← Option.some.inj hd, ih d' hl]

/-- What `unquoteBytes` returns for the text between the quotes, when that is a
normalised well-formed text, is the text before normalisation. -/
theorem unquoteBody_normalize_eq {v : Bytes} (h : WellFormedUTF8 v) (d : Bytes)
    (hd : unquoteBody (normalizePayload v) = some d) : d = v := by
  induction h generalizing d with
  | nil =>
    have : unquoteBody (normalizePayload []) = some [] := rfl
    rw [this] at hd
    exact (Option.some.inj hd).symm
  | ascii b v h2 hv ih =>
    by_cases hb : b = 92
    · subst hb
      rw [normalizePayload_cons_backslash, unquoteBody_backslashes] at hd
      cases hl : unquoteLoop 0 (normalizePayload v) with
      | none => rw [hl] at hd; cases hd
      | some d' =>
        rw [hl] at hd
        rw [← Option.some.inj hd, unquoteLoop_normalize_eq hv d' hl]
    · rw [normalizePayload_cons_other b v hb] at hd
      by_cases hbad : b < 32 ∨ b = 34
      · rw [unquoteBody_cons_bad b _ hbad] at hd
        cases hd
      · rw [unquoteBody_cons_plain b _ (by omega) h2 (by omega) hb] at hd
        cases hl : unquoteBody (normalizePayload v) with
        | none => rw [hl] at hd; cases hd
        | some d' =>
          rw [hl] at hd
          rw [← Option.some.inj hd, ih d' hl]
  | rune u v hu _ ih =>
    rw [normalizePayload_rune hu, unquoteBody_rune hu] at hd
    cases hl : unquoteBody (normalizePayload v) with
    | none => rw [hl] at hd; cases hd
    | some d' =>
      rw [hl] at hd
      rw [← Option.some.inj hd, ih d' hl]

/-! ### Decoding the values of the payload -/

theorem utf8First_some {b sz lo hi : Nat} (h : utf8First b = some (sz, lo, hi)) :
    (sz = 2 ∧ lo = 0x80 ∧ hi = 0xBF ∧ 0xC2 ≤ b ∧ b ≤ 0xDF) ∨
    (sz = 3 ∧ ((b = 0xE0 ∧ lo = 0xA0 ∧ hi = 0xBF) ∨ (0xE1 ≤ b ∧ b ≤ 0xEC ∧ lo = 0x80 ∧ hi = 0xBF) ∨
      (b = 0xED ∧ lo = 0x80 ∧ hi = 0x9F) ∨ (0xEE ≤ b ∧ b ≤ 0xEF ∧ lo = 0x80 ∧ hi = 0xBF))) ∨
    (sz = 4 ∧ ((b = 0xF0 ∧ lo = 0x90 ∧ hi = 0xBF) ∨ (0xF1 ≤ b ∧ b ≤ 0xF3 ∧ lo = 0x80 ∧ hi = 0xBF) ∨
      (b = 0xF4 ∧ lo = 0x80 ∧ hi = 0x8F))) := by
  unfold utf8First at h
  split_ifs at h <;> simp only [Option.some.injEq, Prod.mk.injEq] at h <;>
    obtain ⟨rfl, rfl, rfl⟩ := h <;> simp_all

theorem three_ranges {b lo hi b1 : Nat}
    (c : (b = 0xE0 ∧ lo = 0xA0 ∧ hi = 0xBF) ∨ (0xE1 ≤ b ∧ b ≤ 0xEC ∧ lo = 0x80 ∧ hi = 0xBF) ∨
      (b = 0xED ∧ lo = 0x80 ∧ hi = 0x9F) ∨ (0xEE ≤ b ∧ b ≤ 0xEF ∧ lo = 0x80 ∧ hi = 0xBF))
    (h : ¬ (b1 < lo ∨ hi < b1)) :
    (b = 0xE0 ∧ 0xA0 ≤ b1 ∧ b1 ≤ 0xBF) ∨ (0xE1 ≤ b ∧ b ≤ 0xEC ∧ 0x80 ≤ b1 ∧ b1 ≤ 0xBF) ∨
      (b = 0xED ∧ 0x80 ≤ b1 ∧ b1 ≤ 0x9F) ∨ (0xEE ≤ b ∧ b ≤ 0xEF ∧ 0x80 ≤ b1 ∧ b1 ≤ 0xBF) := by
  omega

theorem four_ranges {b lo hi b1 : Nat}
    (c : (b = 0xF0 ∧ lo = 0x90 ∧ hi = 0xBF) ∨ (0xF1 ≤ b ∧ b ≤ 0xF3 ∧ lo = 0x80 ∧ hi = 0xBF) ∨
      (b = 0xF4 ∧ lo = 0x80 ∧ hi = 0x8F))
    (h : ¬ (b1 < lo ∨ hi < b1)) :
    (b = 0xF0 ∧ 0x90 ≤ b1 ∧ b1 ≤ 0xBF) ∨ (0xF1 ≤ b ∧ b ≤ 0xF3 ∧ 0x80 ≤ b1 ∧ b1 ≤ 0xBF) ∨
      (b = 0xF4 ∧ 0x80 ≤ b1 ∧ b1 ≤ 0x8F) := by
  omega

/-- Where no well-formed multi-byte encoding starts, `utf8.DecodeRune` reports
an error of width 1. -/
theorem decode_of_no_rune (b : Nat) (t : Bytes) (hb : 0x80 ≤ b)
    (h : ¬ StartsWithRune (b :: t)) : utf8DecodeRune (b :: t) = (runeError, 1) := by
  cases hf : utf8First b with
  | none =>
    simp only [utf8DecodeRune, hf]
    rw [if_neg (by omega)]
  | some x =>
    obtain ⟨sz, lo, hi⟩ := x
    simp only [utf8DecodeRune, hf]
    rw [if_neg (by omega)]
    by_cases h1 : (b :: t).length < sz
    · rw [if_pos h1]
    · rw [if_neg h1]
      cases t with
      | nil => rfl
      | cons b1 t1 =>
        simp only []
        by_cases h2 : b1 < lo ∨ hi < b1
        · rw [if_pos h2]
        · rw [if_neg h2]
          rcases utf8First_some hf with ⟨rfl, rfl, rfl, c1, c2⟩ | ⟨rfl, c⟩ | ⟨rfl, c⟩
          · exact absurd ⟨[b, b1], t1, Rune.two b b1 c1 c2 (by omega) (by omega), rfl⟩ h
          · rw [if_neg (by omega)]
            cases t1 with
            | nil => rfl
            | cons b2 t2 =>
              simp only []
              by_cases h3 : b2 < 128 ∨ 191 < b2
              · rw [if_pos h3]
              · exact absurd ⟨[b, b1, b2], t2,
                  Rune.three b b1 b2 (three_ranges c h2) (by omega) (by omega), rfl⟩ h
          · rw [if_neg (by omega)]
            cases t1 with
            | nil => rfl
            | cons b2 t2 =>
              simp only []
              by_cases h3 : b2 < 128 ∨ 191 < b2
              · rw [if_pos h3]
              · rw [if_neg h3, if_neg (by omega)]
                cases t2 with
                | nil => rfl
                | cons b3 t3 =>
                  simp only []
                  by_cases h4 : b3 < 128 ∨ 191 < b3
                  · rw [if_pos h4]
                  · exact absurd ⟨[b, b1, b2, b3], t3,
                      Rune.four b b1 b2 b3 (four_ranges c h2) (by omega) (by omega) (by omega)
                        (by omega), rfl⟩ h

theorem prefix_of_normalize (u r w : Bytes) (hu : ∀ x ∈ u, 0x80 ≤ x)
    (h : u ++ r = normalizePayload w) : ∃ r', w = u ++ r' := by
  induction u generalizing w with
  | nil => exact ⟨w, rfl⟩
  | cons x u' ih =>
    have hx : 0x80 ≤ x := hu x (List.mem_cons_self _ _)
    cases w with
    | nil => simp [normalizePayload_nil] at h
    | cons y w' =>
      by_cases hy : y = 92
      · subst hy
        rw [normalizePayload_cons_backslash] at h
        have := (List.cons.inj h).1
        omega
      · rw [normalizePayload_cons_other y w' hy] at h
        obtain ⟨e, h'⟩ := List.cons.inj h
        obtain ⟨r', hr⟩ := ih w' (fun z hz => hu z (List.mem_cons_of_mem _ hz)) h'
        exact ⟨r', by rw [e, hr]; rfl⟩

theorem startsWithRune_of_normalize (b : Nat) (v : Bytes) (hb : 0x80 ≤ b)
    (h : StartsWithRune (b :: normalizePayload v)) : StartsWithRune (b :: v) := by
  obtain ⟨u, r, hu, e⟩ := h
  have e' : u ++ r = normalizePayload (b :: v) := by
    rw [normalizePayload_cons_other b v (by omega), e]
  obtain ⟨r', hr⟩ := prefix_of_normalize u r (b :: v) (rune_bytes hu).2.1 e'
  exact ⟨u, r', hu, hr⟩

theorem unquoteLoop_cons_illformed (b : Nat) (t : Bytes) (hb : 0x80 ≤ b)
    (hd : utf8DecodeRune (b :: t) = (runeError, 1)) :
    unquoteLoop 0 (b :: t) = (unquoteLoop 0 t).map (fun r => 0xEF :: 0xBF :: 0xBD :: r) := by
  have hstep : unquoteStep b t = some ([0xEF, 0xBF, 0xBD], 1) := by
    simp only [unquoteStep]
    rw [if_neg (by omega), if_neg (by omega), if_neg (by omega), hd]
    rfl
  simp only [unquoteLoop, hstep]
  rfl

theorem unquoteBody_cons_illformed (b : Nat) (t : Bytes) (hb : 0x80 ≤ b)
    (hd : utf8DecodeRune (b :: t) = (runeError, 1)) :
    unquoteBody (b :: t) = (unquoteLoop 0 t).map (fun r => 0xEF :: 0xBF :: 0xBD :: r) := by
  have hp : plainLen 0 (b :: t) = 0 := by
    simp only [plainLen]
    rw [if_neg (by omega), if_neg (by omega), if_pos (by rw [hd]; exact ⟨rfl, rfl⟩)]
  unfold unquoteBody
  rw [hp, if_neg (by simp)]
  simp only [List.drop_zero, List.take_zero, List.nil_append,
    unquoteLoop_cons_illformed b t hb hd]
  cases unquoteLoop 0 t <;> rfl

theorem some_map_inj {f : Bytes → Bytes} {o : Option Bytes} {d : Bytes}
    (h : o.map f = some d) : ∃ d', o = some d' ∧ d = f d' := by
  cases o with
  | none => cases h
  | some d' => exact ⟨d', rfl, (Option.some.inj h).symm⟩

/-- What `unquoteBytes` does to a normalised text, by the length of the text. -/
theorem unquote_normalize_aux (n : Nat) : ∀ v : Bytes, v.length ≤ n →
    (∀ d, unquoteLoop 0 (normalizePayload v) = some d → Coerced v d) ∧
    (∀ d, unquoteBody (normalizePayload v) = some d → Coerced v d) ∧
    (Clean v → (∃ d, unquoteLoop 0 (normalizePayload v) = some d) ∧
      ∃ d, unquoteBody (normalizePayload v) = some d) := by
  induction n with
  | zero =>
    intro v hv
    have : v = [] := List.length_eq_zero.1 (Nat.le_zero.1 hv)
    subst this
    refine ⟨?_, ?_, fun _ => ⟨⟨[], rfl⟩, ⟨[], rfl⟩⟩⟩
    · intro d hd
      have e : unquoteLoop 0 (normalizePayload []) = some [] := rfl
      rw [e] at hd
      rw [← Option.some.inj hd]
      exact Coerced.nil
    · intro d hd
      have e : unquoteBody (normalizePayload []) = some [] := rfl
      rw [e] at hd
      rw [← Option.some.inj hd]
      exact Coerced.nil
  | succ n ih =>
    intro v hv
    cases v with
    | nil => exact ih [] (Nat.zero_le _)
    | cons b v' =>
      have hv' : v'.length ≤ n := by simpa using hv
      obtain ⟨ihL, ihB, ihS⟩ := ih v' hv'
      have hclean' : Clean (b :: v') → Clean v' := fun h x hx => h x (List.mem_cons_of_mem _ hx)
      by_cases hb92 : b = 92
      · subst hb92
        rw [normalizePayload_cons_backslash, unquoteLoop_backslashes, unquoteBody_backslashes]
        refine ⟨?_, ?_, ?_⟩
        · intro d hd
          obtain ⟨d', h1, rfl⟩ := some_map_inj hd
          exact Coerced.ascii 92 v' d' (by omega) (ihL d' h1)
        · intro d hd
          obtain ⟨d', h1, rfl⟩ := some_map_inj hd
          exact Coerced.ascii 92 v' d' (by omega) (ihL d' h1)
        · intro hc
          obtain ⟨⟨d', h1⟩, _⟩ := ihS (hclean' hc)
          rw [h1]
          exact ⟨⟨_, rfl⟩, ⟨_, rfl⟩⟩
      · rw [normalizePayload_cons_other b v' hb92]
        by_cases hlt : b < 0x80
        · by_cases hbad : b < 32 ∨ b = 34
          · rw [unquoteLoop_cons_bad b _ hbad, unquoteBody_cons_bad b _ hbad]
            refine ⟨?_, ?_, ?_⟩
            · intro d hd
              cases hd
            · intro d hd
              cases hd
            · intro hc
              have := hc b (List.mem_cons_self _ _)
              omega
          · rw [unquoteLoop_cons_plain b _ (by omega) hlt (by omega) hb92,
              unquoteBody_cons_plain b _ (by omega) hlt (by omega) hb92]
            refine ⟨?_, ?_, ?_⟩
            · intro d hd
              obtain ⟨d', h1, rfl⟩ := some_map_inj hd
              exact Coerced.ascii b v' d' hlt (ihL d' h1)
            · intro d hd
              obtain ⟨d', h1, rfl⟩ := some_map_inj hd
              exact Coerced.ascii b v' d' hlt (ihB d' h1)
            · intro hc
              obtain ⟨⟨d₁, h1⟩, ⟨d₂, h2⟩⟩ := ihS (hclean' hc)
              rw [h1, h2]
              exact ⟨⟨_, rfl⟩, ⟨_, rfl⟩⟩
        · have hge : 0x80 ≤ b := by omega
          by_cases hr : StartsWithRune (b :: v')
          · obtain ⟨u, r, hu, e⟩ := hr
            have hlen : r.length ≤ n := by
              have h2 := (rune_bytes hu).1
              have := congrArg List.length e
              simp only [List.length_cons, List.length_append] at this
              omega
            obtain ⟨rL, rB, rS⟩ := ih r hlen
            have en : b :: normalizePayload v' = u ++ normalizePayload r := by
              rw [← normalizePayload_cons_other b v' hb92, e, normalizePayload_rune hu]
            rw [en, unquoteLoop_rune hu, unquoteBody_rune hu, e]
            refine ⟨?_, ?_, ?_⟩
            · intro d hd
              obtain ⟨d', h1, rfl⟩ := some_map_inj hd
              exact Coerced.rune u r d' hu (rL d' h1)
            · intro d hd
              obtain ⟨d', h1, rfl⟩ := some_map_inj hd
              exact Coerced.rune u r d' hu (rB d' h1)
            · intro hc
              obtain ⟨⟨d₁, h1⟩, ⟨d₂, h2⟩⟩ := rS (fun x hx => hc x (List.mem_append_right _ hx))
              rw [h1, h2]
              exact ⟨⟨_, rfl⟩, ⟨_, rfl⟩⟩
          · have hdec : utf8DecodeRune (b :: normalizePayload v') = (runeError, 1) :=
              decode_of_no_rune b _ hge (fun h => hr (startsWithRune_of_normalize b v' hge h))
            rw [unquoteLoop_cons_illformed b _ hge hdec, unquoteBody_cons_illformed b _ hge hdec]
            refine ⟨?_, ?_, ?_⟩
            · intro d hd
              obtain ⟨d', h1, rfl⟩ := some_map_inj hd
              exact Coerced.illFormed b v' d' hge hr (ihL d' h1)
            · intro d hd
              obtain ⟨d', h1, rfl⟩ := some_map_inj hd
              exact Coerced.illFormed b v' d' hge hr (ihL d' h1)
            · intro hc
              obtain ⟨⟨d', h1⟩, _⟩ := ihS (hclean' hc)
              rw [h1]
              exact ⟨⟨_, rfl⟩, ⟨_, rfl⟩⟩

theorem coerced_ascii {v d : Bytes} (h : Coerced v d) :
    d.filter (fun b => b < 0x80) = v.filter (fun b => b < 0x80) ∧ d.count 92 = v.count 92 := by
  induction h with
  | nil => exact ⟨rfl, rfl⟩
  | ascii b v d hb _ ih =>
    refine ⟨?_, ?_⟩
    · simp [List.filter_cons, hb, ih.1]
    · simp [List.count_cons, ih.2]
  | rune u v d hu _ ih =>
    have hge := (rune_bytes hu).2.1
    have hf : u.filter (fun b => b < 0x80) = [] := by
      rw [List.filter_eq_nil_iff]
      intro x hx
      have := hge x hx
      simp only [decide_eq_true_eq]
      omega
    have hc : u.count 92 = 0 := by
      rw [List.count_eq_zero]
      intro hx
      have := hge 92 hx
      omega
    refine ⟨?_, ?_⟩
    · rw [List.filter_append, List.filter_append, hf, ih.1]
    · rw [List.count_append, List.count_append, hc, ih.2]
  | illFormed b v d hb _ _ ih =>
    have hb' : ¬ b < 0x80 := by omega
    have hb92 : ¬ (b == 92) = true := by
      simp only [beq_iff_eq]; omega
    refine ⟨?_, ?_⟩
    · simp [List.filter_cons, hb', ih.1]
    · simp [List.count_cons, ih.2, hb92]

theorem normalizePayload_bytes (s : String) (h : ∀ b ∈ bytes s, b ≠ 92) :
    normalizePayload (bytes s) = bytes s :=
  normalizePayload_of_no_backslash _ h

theorem normalizePayload_quoted (v : Bytes) :
    normalizePayload (quoted v) = quoted (normalizePayload v) := by
  unfold quoted
  rw [normalizePayload_append, normalizePayload_append]
  rfl

theorem normalizePayload_renderEntry (w : Bytes × Bytes) :
    normalizePayload (renderEntry w) =
      renderEntry (normalizePayload w.1, normalizePayload w.2) := by
  unfold renderEntry
  simp only [normalizePayload_append, normalizePayload_quoted]
  rw [normalizePayload_bytes _ (by decide), normalizePayload_bytes _ (by decide),
    normalizePayload_bytes _ (by decide)]

theorem normalizePayload_renderEntries (ws : List (Bytes × Bytes)) :
    normalizePayload (renderEntries ws) = renderEntries (normalizeValues ws) := by
  induction ws with
  | nil => rfl
  | cons w ws ih =>
    cases ws with
    | nil => exact normalizePayload_renderEntry w
    | cons w' ws' =>
      have e : renderEntries (w :: w' :: ws') =
          renderEntry w ++ [44] ++ renderEntries (w' :: ws') := rfl
      rw [e, normalizePayload_append, normalizePayload_append, ih, normalizePayload_renderEntry]
      rfl

theorem normalizePayload_renderPayload (D G : List (Bytes × Bytes)) :
    normalizePayload (renderPayload D G) =
      renderPayload (normalizeValues D) (normalizeValues G) := by
  unfold renderPayload
  simp only [normalizePayload_append, normalizePayload_renderEntries]
  rw [normalizePayload_bytes _ (by decide), normalizePayload_bytes _ (by decide),
    normalizePayload_bytes _ (by decide)]

theorem decodeValue_spec {v d : Bytes} (h : decodeValue v = some d) : DecodedValue v d := by
  have e : quoted (normalizePayload v) = 34 :: (normalizePayload v ++ [34]) := rfl
  unfold decodeValue at h
  rw [e, unquoteBytes_quoted] at h
  have hc := (unquote_normalize_aux v.length v (le_refl _)).2.1 d h
  refine ⟨hc, (coerced_ascii hc).2, (coerced_ascii hc).1, ?_⟩
  intro hwf
  have := unquoteBody_normalize_eq hwf d h
  subst this
  exact ⟨rfl, fun _ => Iff.rfl⟩

theorem decodeValue_isSome {v : Bytes} (h : Clean v) : ∃ d, decodeValue v = some d := by
  have e : quoted (normalizePayload v) = 34 :: (normalizePayload v ++ [34]) := rfl
  unfold decodeValue
  rw [e, unquoteBytes_quoted]
  exact ((unquote_normalize_aux v.length v (le_refl _)).2.2 h).2

theorem decodeEntries_spec {ws : List (Bytes × Bytes)} {es : List JSONSyncEntry}
    (h : decodeEntries ws = some es) :
    List.Forall₂ (fun w e => DecodedValue w.1 e.Src ∧ DecodedValue w.2 e.Dest) ws es := by
  induction ws generalizing es with
  | nil =>
    have : es = [] := by
      have e : decodeEntries [] = some ([] : List JSONSyncEntry) := rfl
      rw [e] at h
      exact (Option.some.inj h).symm
    subst this
    exact List.Forall₂.nil
  | cons w ws ih =>
    simp only [decodeEntries] at h
    cases he : decodeEntry w with
    | none => rw [he] at h; cases h
    | some e =>
      cases hes : decodeEntries ws with
      | none => rw [he, hes] at h; cases h
      | some es' =>
        rw [he, hes] at h
        have : es = e :: es' := (Option.some.inj h).symm
        subst this
        refine List.Forall₂.cons ?_ (ih hes)
        unfold decodeEntry at he
        cases h1 : decodeValue w.1 with
        | none => rw [h1] at he; cases he
        | some s =>
          cases h2 : decodeValue w.2 with
          | none => rw [h1, h2] at he; cases he
          | some d =>
            rw [h1, h2] at he
            have : e = ⟨s, d⟩ := (Option.some.inj he).symm
            subst this
            exact ⟨decodeValue_spec h1, decodeValue_spec h2⟩

theorem decodeWire_spec {D G : List (Bytes × Bytes)} {jsm : JSONSyncMap}
    (h : decodeWire D G = some jsm) :
    List.Forall₂ (fun w e => DecodedValue w.1 e.Src ∧ DecodedValue w.2 e.Dest)
      (D ++ G) jsm.entries := by
  unfold decodeWire at h
  cases hd : decodeEntries D with
  | none => rw [hd] at h; cases h
  | some d =>
    cases hg : decodeEntries G with
    | none => rw [hd, hg] at h; cases h
    | some g =>
      rw [hd, hg] at h
      have : jsm = ⟨d, g⟩ := (Option.some.inj h).symm
      subst this
      exact List.rel_append (decodeEntries_spec hd) (decodeEntries_spec hg)

/-- The keys and destinations of the map of a successful extraction are the
`Src` and `Dest` strings of the decoded entries. -/
theorem final_entries (env : Env) (jsm : JSONSyncMap) (hstat : AllStat env jsm.entries) :
    (∀ e ∈ jsm.entries, ∃ x, (SyncMap.addEntries env
        (SyncMap.addEntries env SyncMap.empty jsm.Direct true).sm jsm.Generated false).sm.get?
          e.Src = some x) ∧
    (∀ k x, (SyncMap.addEntries env
        (SyncMap.addEntries env SyncMap.empty jsm.Direct true).sm jsm.Generated false).sm.get? k =
          some x →
      ∃ e, lastWithSrc jsm.entries k = some e ∧ e.Src = k ∧ x.Dest = [e.Dest]) := by
  have hl : ∀ k, lastWithSrc jsm.entries k =
      match lastWithSrc jsm.Generated k with
      | some w => some w
      | none => lastWithSrc jsm.Direct k := fun k => lastWithSrc_append jsm.Direct jsm.Generated k
  constructor
  · intro e he
    rw [final_get? env jsm hstat e.Src]
    have hne : lastWithSrc jsm.entries e.Src ≠ none := by
      intro hc
      exact (lastWithSrc_eq_none.1 hc) (List.mem_map_of_mem _ he)
    rw [hl] at hne
    cases hg : lastWithSrc jsm.Generated e.Src with
    | some w => exact ⟨_, rfl⟩
    | none =>
      rw [hg] at hne
      cases hd : lastWithSrc jsm.Direct e.Src with
      | some w => exact ⟨_, rfl⟩
      | none => exact absurd hd hne
  · intro k x hx
    rw [final_get? env jsm hstat k] at hx
    have hk := hl k
    cases hg : lastWithSrc jsm.Generated k with
    | some w =>
      rw [hg] at hx hk
      have hw : lastWithSrc jsm.entries k = some w := hk
      simp only [Option.some.injEq] at hx
      exact ⟨w, hw, (lastWithSrc_some hw).2, by rw [← hx]⟩
    | none =>
      rw [hg] at hx hk
      cases hd : lastWithSrc jsm.Direct k with
      | some w =>
        rw [hd] at hx hk
        have hw : lastWithSrc jsm.entries k = some w := hk
        simp only [Option.some.injEq] at hx
        exact ⟨w, hw, (lastWithSrc_some hw).2, by rw [← hx]⟩
      | none =>
        rw [hd] at hx
        cases hx

/-! ## The claims about the output extractor -/

/-- C1: when the process output holds no marker line, `getSyncMapFromSystem`
returns the error "failed to get Jib Sync data" and a nil map, and neither the
JSON decoder nor `os.Stat` is called. -/
theorem getSyncMapFromSystem_no_marker (env : Env) (cmd : Cmd) (out : Bytes)
    (hrun : env.RunCmdOut cmd = Except.ok out) (hno : ¬ HasMarkerLine out) :
    (getSyncMapFromSystem env cmd).sm = none ∧
      (getSyncMapFromSystem env cmd).err = some (bytes "failed to get Jib Sync data") ∧
      (getSyncMapFromSystem env cmd).calls = [] := by
  have hfind : markerFind out = none := by
    by_contra h
    exact hno ((hasMarkerLine_iff out).2 h)
  rw [getSyncMapFromSystem_notFound env cmd out hrun hfind]
  exact ⟨rfl, rfl, rfl⟩

/-- C1 at the output `Built target/classes` + line feed, which holds no marker. -/
theorem getSyncMapFromSystem_no_marker_witness :
    ¬ HasMarkerLine (bytes "Built target/classes\n") ∧
      (getSyncMapFromSystem (exampleEnv (bytes "Built target/classes\n") [] ⟨[], []⟩ []) []).sm = none ∧
      (getSyncMapFromSystem (exampleEnv (bytes "Built target/classes\n") [] ⟨[], []⟩ []) []).err =
        some (bytes "failed to get Jib Sync data") ∧
      (getSyncMapFromSystem (exampleEnv (bytes "Built target/classes\n") [] ⟨[], []⟩ []) []).calls = [] :=
  have h : ¬ HasMarkerLine (bytes "Built target/classes\n") := by
    rw [hasMarkerLine_iff]
    decide
  ⟨h, getSyncMapFromSystem_no_marker _ [] (bytes "Built target/classes\n") rfl h⟩

/-- C8, as the code has it: the marker is accepted bare or with the suffix
": SYNCMAP/1" and with no other suffix. For a prefix without a marker line, a
marker of one of these two forms, a line break, and a line `{body}tail` with
no `}` in `tail`, `FindSubmatch` returns the payload `{body}`; and whenever
`FindSubmatch` returns a match, the output holds the marker in one of the two
forms. -/
theorem marker_forms_accepted (pre version nl body tail rest : Bytes)
    (hno : ¬ HasMarkerLine pre)
    (hv : version = [] ∨ version = bytes ": SYNCMAP/1") (hnl : nl = [10] ∨ nl = [13, 10])
    (hbody : 10 ∉ body) (htail : 125 ∉ tail) (hrest : AtLineEnd rest) :
    (∃ whole, markerRegex.FindSubmatch
        (pre ++ bytes "BEGIN JIB JSON" ++ version ++ nl ++ [123] ++ body ++ [125] ++ tail ++ rest) =
          [whole, [123] ++ body ++ [125]]) ∧
      (∀ out, markerRegex.FindSubmatch out ≠ [] → HasMarkerLine out) := by
  constructor
  · have hfind : markerFind pre = none := by
      by_contra h
      exact hno ((hasMarkerLine_iff pre).2 h)
    have h := markerFind_marker_line pre version nl body tail rest hfind hv hnl hbody htail hrest
    have e : pre ++ bytes "BEGIN JIB JSON" ++ version ++ nl ++ [123] ++ body ++ [125] ++ tail ++ rest =
        pre ++ (bytes "BEGIN JIB JSON" ++ version ++ nl ++ 123 :: (body ++ 125 :: (tail ++ rest))) := by
      simp
    rw [e]
    exact FindSubmatch_group _ _ h
  · intro out hout
    rw [hasMarkerLine_iff]
    intro h
    exact hout ((FindSubmatch_eq_nil_iff out).2 h)

/-- C8 at the output "compiling" / "BEGIN JIB JSON: SYNCMAP/1" / "{}" with
line feeds. -/
theorem marker_forms_accepted_witness :
    (∃ whole, markerRegex.FindSubmatch
        (bytes "compiling\n" ++ bytes "BEGIN JIB JSON" ++ bytes ": SYNCMAP/1" ++ [10] ++ [123] ++ [] ++
          [125] ++ [] ++ [10]) = [whole, [123] ++ [] ++ [125]]) ∧
      (∀ out, markerRegex.FindSubmatch out ≠ [] → HasMarkerLine out) :=
  marker_forms_accepted (bytes "compiling\n") (bytes ": SYNCMAP/1") [10] [] [] [10]
    (by rw [hasMarkerLine_iff]; decide)
    (Or.inr rfl) (Or.inl rfl) (by decide) (by decide) (Or.inr ⟨[], rfl⟩)

/-- C8 as stated fails: a marker line with the version suffix ": SYNCMAP/2"
followed by a JSON object is not matched, and the extraction reports that no
sync data was found. -/
theorem marker_version_two_rejected :
    markerRegex.FindSubmatch (bytes "BEGIN JIB JSON: SYNCMAP/2\n\x7b\"direct\":[],\"generated\":[]\x7d\n") = [] ∧
      (getSyncMapFromSystem
        (exampleEnv (bytes "BEGIN JIB JSON: SYNCMAP/2\n\x7b\"direct\":[],\"generated\":[]\x7d\n")
          (bytes "\x7b\"direct\":[],\"generated\":[]\x7d") ⟨[], []⟩ []) []).err =
        some (bytes "failed to get Jib Sync data") := by
  constructor <;> decide

theorem getSyncMapFromSystem_calls_head (env : Env) (cmd : Cmd) (out p : Bytes)
    (hrun : env.RunCmdOut cmd = Except.ok out) (hfind : markerFind out = some p) :
    (getSyncMapFromSystem env cmd).calls.head? = some (Call.unmarshal (normalizePayload p)) := by
  rw [getSyncMapFromSystem_found env cmd out p hrun hfind]
  cases env.Unmarshal (normalizePayload p) with
  | error err => rfl
  | ok jsm =>
    simp only [buildSyncMap]
    cases (SyncMap.addEntries env SyncMap.empty jsm.Direct true).err with
    | some e => rfl
    | none =>
      simp only []
      cases (SyncMap.addEntries env
        (SyncMap.addEntries env SyncMap.empty jsm.Direct true).sm jsm.Generated false).err with
      | some e => rfl
      | none => rfl

theorem getSyncMapFromSystem_congr (env : Env) (cmd cmd' : Cmd) (out out' p : Bytes)
    (hrun : env.RunCmdOut cmd = Except.ok out) (hrun' : env.RunCmdOut cmd' = Except.ok out')
    (hfind : markerFind out = some p) (hfind' : markerFind out' = some p) :
    getSyncMapFromSystem env cmd' = getSyncMapFromSystem env cmd := by
  rw [getSyncMapFromSystem_found env cmd out p hrun hfind,
    getSyncMapFromSystem_found env cmd' out' p hrun' hfind']

/-- C9: only the first marker is used. When the first marker line of the output
(after a prefix without a marker line) is followed by the
line `{body}tail` and a line feed, the text handed to the decoder is the
normalised payload `{body}`, and the whole result, calls included, is the same
for every continuation `z`, `z'` of the output after that line feed, whatever
markers the continuation holds. -/
theorem first_marker_only (env : Env) (cmd cmd' : Cmd) (pre version nl body tail z z' : Bytes)
    (hrun : env.RunCmdOut cmd = Except.ok
      (pre ++ bytes "BEGIN JIB JSON" ++ version ++ nl ++ [123] ++ body ++ [125] ++ tail ++ [10] ++ z))
    (hrun' : env.RunCmdOut cmd' = Except.ok
      (pre ++ bytes "BEGIN JIB JSON" ++ version ++ nl ++ [123] ++ body ++ [125] ++ tail ++ [10] ++ z'))
    (hno : ¬ HasMarkerLine pre)
    (hv : version = [] ∨ version = bytes ": SYNCMAP/1") (hnl : nl = [10] ∨ nl = [13, 10])
    (hbody : 10 ∉ body) (htail : 125 ∉ tail) :
    (getSyncMapFromSystem env cmd).calls.head? =
        some (Call.unmarshal (normalizePayload ([123] ++ body ++ [125]))) ∧
      getSyncMapFromSystem env cmd' = getSyncMapFromSystem env cmd := by
  have hfind : markerFind pre = none := by
    by_contra h
    exact hno ((hasMarkerLine_iff pre).2 h)
  have key : ∀ y : Bytes, markerFind
      (pre ++ bytes "BEGIN JIB JSON" ++ version ++ nl ++ [123] ++ body ++ [125] ++ tail ++ [10] ++ y) =
        some ([123] ++ body ++ [125]) := by
    intro y
    have h := markerFind_marker_line pre version nl body tail (10 :: y) hfind hv hnl hbody
      htail (Or.inr ⟨y, rfl⟩)
    have e : pre ++ bytes "BEGIN JIB JSON" ++ version ++ nl ++ [123] ++ body ++ [125] ++ tail ++ [10] ++ y =
        pre ++ (bytes "BEGIN JIB JSON" ++ version ++ nl ++ 123 :: (body ++ 125 :: (tail ++ 10 :: y))) := by
      simp
    rw [e, h]
    simp
  exact ⟨getSyncMapFromSystem_calls_head env cmd _ _ hrun (key z),
    getSyncMapFromSystem_congr env cmd cmd' _ _ _ hrun hrun' (key z) (key z')⟩

/-- C9 at an output with two markers: the command `[]` prints the first marker
with the payload `{}` and then a second marker with the payload `{"x":1}`, the
other command prints only the first marker and its payload. -/
theorem first_marker_only_witness :
    (getSyncMapFromSystem
        (exampleEnv₂ (bytes "BEGIN JIB JSON\n\x7b\x7d\nBEGIN JIB JSON\n\x7b\"x\":1\x7d\n") (bytes "BEGIN JIB JSON\n\x7b\x7d\n")
          (bytes "\x7b\x7d") ⟨[], []⟩ []) []).calls.head? =
        some (Call.unmarshal (normalizePayload ([123] ++ [] ++ [125]))) ∧
      getSyncMapFromSystem
        (exampleEnv₂ (bytes "BEGIN JIB JSON\n\x7b\x7d\nBEGIN JIB JSON\n\x7b\"x\":1\x7d\n") (bytes "BEGIN JIB JSON\n\x7b\x7d\n")
          (bytes "\x7b\x7d") ⟨[], []⟩ []) [[]] =
      getSyncMapFromSystem
        (exampleEnv₂ (bytes "BEGIN JIB JSON\n\x7b\x7d\nBEGIN JIB JSON\n\x7b\"x\":1\x7d\n") (bytes "BEGIN JIB JSON\n\x7b\x7d\n")
          (bytes "\x7b\x7d") ⟨[], []⟩ []) [] :=
  first_marker_only _ [] [[]] [] [] [10] [] [] (bytes "BEGIN JIB JSON\n\x7b\"x\":1\x7d\n") []
    rfl rfl (by rw [hasMarkerLine_iff]; decide)
    (Or.inl rfl) (Or.inl rfl) (by decide) (by decide)

/-- C10, as the code has it: after a prefix without a marker line, for both
marker forms and every payload line `{body}tail` (no line feed in
`body`, no `}` in `tail`), the payload extracted when marker line and payload
line end with CRLF equals the one extracted when they end with LF; it is the
text `{body}`, from the opening `{` to the last `}` of the line; it holds no
line feed, and a carriage return only where `body` has one. -/
theorem payload_line_endings (pre version body tail rest rest' : Bytes)
    (hno : ¬ HasMarkerLine pre)
    (hv : version = [] ∨ version = bytes ": SYNCMAP/1")
    (hbody : 10 ∉ body) (htail : 125 ∉ tail) :
    (∃ whole, markerRegex.FindSubmatch
        (pre ++ bytes "BEGIN JIB JSON" ++ version ++ [13, 10] ++ [123] ++ body ++ [125] ++ tail ++
          [13, 10] ++ rest) = [whole, [123] ++ body ++ [125]]) ∧
      (∃ whole, markerRegex.FindSubmatch
        (pre ++ bytes "BEGIN JIB JSON" ++ version ++ [10] ++ [123] ++ body ++ [125] ++ tail ++
          [10] ++ rest') = [whole, [123] ++ body ++ [125]]) ∧
      10 ∉ [123] ++ body ++ [125] ∧
      (13 ∈ [123] ++ body ++ [125] ↔ 13 ∈ body) := by
  have hfind : markerFind pre = none := by
    by_contra h
    exact hno ((hasMarkerLine_iff pre).2 h)
  refine ⟨?_, ?_, ?_, ?_⟩
  · have h := markerFind_marker_line pre version [13, 10] body (tail ++ [13]) (10 :: rest) hfind
      hv (Or.inr rfl) hbody (by simp [htail]) (Or.inr ⟨rest, rfl⟩)
    have e : pre ++ bytes "BEGIN JIB JSON" ++ version ++ [13, 10] ++ [123] ++ body ++ [125] ++ tail ++
        [13, 10] ++ rest =
        pre ++ (bytes "BEGIN JIB JSON" ++ version ++ [13, 10] ++
          123 :: (body ++ 125 :: (tail ++ [13] ++ 10 :: rest))) := by
      simp
    rw [e]
    exact FindSubmatch_group _ _ h
  · have h := markerFind_marker_line pre version [10] body tail (10 :: rest') hfind
      hv (Or.inl rfl) hbody htail (Or.inr ⟨rest', rfl⟩)
    have e : pre ++ bytes "BEGIN JIB JSON" ++ version ++ [10] ++ [123] ++ body ++ [125] ++ tail ++
        [10] ++ rest' =
        pre ++ (bytes "BEGIN JIB JSON" ++ version ++ [10] ++
          123 :: (body ++ 125 :: (tail ++ 10 :: rest'))) := by
      simp
    rw [e]
    exact FindSubmatch_group _ _ h
  · simp [hbody]
  · simp

/-- C10 at the prefix "compiling" + line feed, the bare marker and the payload
line `{"direct":[],"generated":[]}`. -/
theorem payload_line_endings_witness :
    (∃ whole, markerRegex.FindSubmatch
        (bytes "compiling\n" ++ bytes "BEGIN JIB JSON" ++ [] ++ [13, 10] ++ [123] ++
          bytes "\"direct\":[],\"generated\":[]" ++ [125] ++ [] ++ [13, 10] ++ []) =
          [whole, [123] ++ bytes "\"direct\":[],\"generated\":[]" ++ [125]]) ∧
      (∃ whole, markerRegex.FindSubmatch
        (bytes "compiling\n" ++ bytes "BEGIN JIB JSON" ++ [] ++ [10] ++ [123] ++
          bytes "\"direct\":[],\"generated\":[]" ++ [125] ++ [] ++ [10] ++ []) =
          [whole, [123] ++ bytes "\"direct\":[],\"generated\":[]" ++ [125]]) ∧
      10 ∉ [123] ++ bytes "\"direct\":[],\"generated\":[]" ++ [125] ∧
      (13 ∈ [123] ++ bytes "\"direct\":[],\"generated\":[]" ++ [125] ↔
        13 ∈ bytes "\"direct\":[],\"generated\":[]") :=
  payload_line_endings (bytes "compiling\n") [] (bytes "\"direct\":[],\"generated\":[]") [] [] []
    (by rw [hasMarkerLine_iff]; decide) (Or.inl rfl)
    (by decide) (by decide)

/-- C10 as stated fails in two ways. A payload line that is a JSON object with
a carriage return between its members is extracted with that carriage return,
so the payload does hold a CR byte; and with a prefix that itself holds a
marker and a payload, the payload extracted is the one of the prefix, not the
line after the later marker. -/
theorem payload_may_hold_cr :
    markerRegex.FindSubmatch (bytes "BEGIN JIB JSON\r\n\x7b\"direct\":[],\r\"generated\":[]\x7d\r\n") =
        [bytes "BEGIN JIB JSON\r\n\x7b\"direct\":[],\r\"generated\":[]\x7d",
          bytes "\x7b\"direct\":[],\r\"generated\":[]\x7d"] ∧
      13 ∈ bytes "\x7b\"direct\":[],\r\"generated\":[]\x7d" ∧
      markerRegex.FindSubmatch
        (bytes "BEGIN JIB JSON\n\x7b\"a\":1\x7d\n" ++ bytes "BEGIN JIB JSON" ++ [10] ++ bytes "\x7b\"b\":2\x7d" ++ [10]) =
        [bytes "BEGIN JIB JSON\n\x7b\"a\":1\x7d", bytes "\x7b\"a\":1\x7d"] ∧
      bytes "\x7b\"a\":1\x7d" ≠ bytes "\x7b\"b\":2\x7d" := by
  refine ⟨?_, ?_, ?_, ?_⟩ <;> decide

/-! ## The claims about the sync map builder -/

/-- C2: when a source of the decoded payload cannot be stat'ed, the extraction
fails fast. With `w` the first entry in processing order (direct, then
generated) whose `Src` fails `os.Stat`, `getSyncMapFromSystem` returns a nil map
and the error "could not obtain file mod time for `w.Src`: cause"; the only
calls made are the decoding and the stats of the entries up to and including
`w`; and `addEntries` leaves its map as the entries before `w` built it. -/
theorem stat_failure_fails_fast (env : Env) (cmd : Cmd) (out whole payload : Bytes)
    (jsm : JSONSyncMap) (a b : List JSONSyncEntry) (w : JSONSyncEntry) (cause : Error)
    (hrun : env.RunCmdOut cmd = Except.ok out)
    (hfind : markerRegex.FindSubmatch out = [whole, payload])
    (hdec : env.Unmarshal (normalizePayload payload) = Except.ok jsm)
    (hsplit : jsm.entries = a ++ w :: b) (ha : AllStat env a)
    (hw : env.Stat w.Src = Except.error cause) :
    (getSyncMapFromSystem env cmd).sm = none ∧
      (getSyncMapFromSystem env cmd).err =
        some (bytes "could not obtain file mod time for " ++ w.Src ++ bytes ": " ++ cause) ∧
      (getSyncMapFromSystem env cmd).calls =
        Call.unmarshal (normalizePayload payload) :: (a ++ [w]).map (fun e => Call.stat e.Src) ∧
      ∀ (sm : SyncMap) (direct : Bool),
        (SyncMap.addEntries env sm (a ++ w :: b) direct).sm = (SyncMap.addEntries env sm a direct).sm ∧
        (SyncMap.addEntries env sm (a ++ w :: b) direct).err =
          some (bytes "could not obtain file mod time for " ++ w.Src ++ bytes ": " ++ cause) := by
  have hfound := getSyncMapFromSystem_found env cmd out payload hrun
    (markerFind_of_FindSubmatch hfind)
  rw [hdec] at hfound
  simp only [] at hfound
  rw [hfound, buildSyncMap_fail env _ jsm a b w cause hsplit ha hw]
  refine ⟨rfl, rfl, rfl, ?_⟩
  intro sm direct
  rw [addEntries_fail env sm a b w direct cause ha hw]
  refine ⟨rfl, ?_⟩
  simp [errorsWrap]

/-- C2 at `exampleOutput` on a file system that holds `/a/A.txt` only: the
second direct entry, `/a/B.java`, is the first that cannot be stat'ed. -/
theorem stat_failure_fails_fast_witness :
    (getSyncMapFromSystem (exampleSystem [(bytes "/a/A.txt", 7)]) []).sm = none ∧
      (getSyncMapFromSystem (exampleSystem [(bytes "/a/A.txt", 7)]) []).err =
        some (bytes "could not obtain file mod time for " ++ bytes "/a/B.java" ++ bytes ": " ++
          (bytes "stat " ++ bytes "/a/B.java" ++ bytes ": no such file or directory")) ∧
      (getSyncMapFromSystem (exampleSystem [(bytes "/a/A.txt", 7)]) []).calls =
        [Call.unmarshal examplePayload, Call.stat (bytes "/a/A.txt"),
          Call.stat (bytes "/a/B.java")] :=
  have h := stat_failure_fails_fast (exampleSystem [(bytes "/a/A.txt", 7)]) [] exampleOutput
    (bytes "BEGIN JIB JSON: SYNCMAP/1\n" ++ examplePayload) examplePayload exampleDecoded
    [⟨bytes "/a/A.txt", bytes "/app/A.txt"⟩] [⟨bytes "/a/B.java", bytes "/app/B.class"⟩]
    ⟨bytes "/a/B.java", bytes "/app/B.java"⟩
    (bytes "stat " ++ bytes "/a/B.java" ++ bytes ": no such file or directory")
    rfl (by decide) rfl rfl
    (by intro e he; rw [List.mem_singleton.1 he]; exact ⟨⟨7⟩, rfl⟩) rfl
  ⟨h.1, h.2.1, h.2.2.1⟩

/-- C3: on a successful extraction an entry of the map is flagged direct exactly
when its key is the `Src` of a direct entry and of no generated entry; so a
`src` that appears in both collections has `IsDirect = false`. -/
theorem isDirect_iff (env : Env) (cmd : Cmd) (out whole payload : Bytes) (jsm : JSONSyncMap)
    (hrun : env.RunCmdOut cmd = Except.ok out)
    (hfind : markerRegex.FindSubmatch out = [whole, payload])
    (hdec : env.Unmarshal (normalizePayload payload) = Except.ok jsm)
    (hstat : AllStat env jsm.entries) :
    ∃ sm, (getSyncMapFromSystem env cmd).sm = some sm ∧
      (getSyncMapFromSystem env cmd).err = none ∧
      (∀ k e, sm.get? k = some e →
        (e.IsDirect = true ↔
          k ∈ jsm.Direct.map JSONSyncEntry.Src ∧ k ∉ jsm.Generated.map JSONSyncEntry.Src)) ∧
      (∀ k, k ∈ jsm.Direct.map JSONSyncEntry.Src → k ∈ jsm.Generated.map JSONSyncEntry.Src →
        ∃ e, sm.get? k = some e ∧ e.IsDirect = false) := by
  rw [getSyncMapFromSystem_ok env cmd out whole payload jsm hrun hfind hdec hstat]
  refine ⟨_, rfl, rfl, ?_, ?_⟩
  · intro k e he
    rw [final_get? env jsm hstat k] at he
    cases hg : lastWithSrc jsm.Generated k with
    | some w =>
      rw [hg] at he
      have hmem : k ∈ jsm.Generated.map JSONSyncEntry.Src := by
        by_contra hc
        rw [lastWithSrc_eq_none.2 hc] at hg
        cases hg
      have : e.IsDirect = false := by
        simp only [Option.some.injEq] at he
        rw [← he]
      simp [this, hmem]
    | none =>
      rw [hg] at he
      have hnot := lastWithSrc_eq_none.1 hg
      cases hd : lastWithSrc jsm.Direct k with
      | some w =>
        rw [hd] at he
        have hmem : k ∈ jsm.Direct.map JSONSyncEntry.Src := by
          by_contra hc
          rw [lastWithSrc_eq_none.2 hc] at hd
          cases hd
        have : e.IsDirect = true := by
          simp only [Option.some.injEq] at he
          rw [← he]
        simp [this, hmem, hnot]
      | none =>
        rw [hd] at he
        cases he
  · intro k _ hg
    rw [final_get? env jsm hstat k]
    cases hl : lastWithSrc jsm.Generated k with
    | some w => exact ⟨_, rfl, rfl⟩
    | none => exact absurd hg (lastWithSrc_eq_none.1 hl)

/-- C3 at `exampleOutput`, where `/a/B.java` is both direct and generated. -/
theorem isDirect_iff_witness :
    ∃ sm, (getSyncMapFromSystem (exampleSystem [(bytes "/a/A.txt", 7), (bytes "/a/B.java", 9)]) []).sm =
        some sm ∧
      (getSyncMapFromSystem (exampleSystem [(bytes "/a/A.txt", 7), (bytes "/a/B.java", 9)]) []).err =
        none ∧
      (∀ k e, sm.get? k = some e →
        (e.IsDirect = true ↔
          k ∈ exampleDecoded.Direct.map JSONSyncEntry.Src ∧
            k ∉ exampleDecoded.Generated.map JSONSyncEntry.Src)) ∧
      (∀ k, k ∈ exampleDecoded.Direct.map JSONSyncEntry.Src →
        k ∈ exampleDecoded.Generated.map JSONSyncEntry.Src →
        ∃ e, sm.get? k = some e ∧ e.IsDirect = false) :=
  isDirect_iff (exampleSystem [(bytes "/a/A.txt", 7), (bytes "/a/B.java", 9)]) [] exampleOutput
    (bytes "BEGIN JIB JSON: SYNCMAP/1\n" ++ examplePayload) examplePayload exampleDecoded
    rfl (by decide) rfl exampleSystem_allStat

/-- C4: an output with a marker whose payload decodes and whose sources can all
be stat'ed gives a map; its keys are exactly the `Src` values of the direct and
generated entries, each once, so its length is the number of distinct `Src`
values. -/
theorem len_eq_distinct_srcs (env : Env) (cmd : Cmd) (out whole payload : Bytes)
    (jsm : JSONSyncMap) (hrun : env.RunCmdOut cmd = Except.ok out)
    (hfind : markerRegex.FindSubmatch out = [whole, payload])
    (hdec : env.Unmarshal (normalizePayload payload) = Except.ok jsm)
    (hstat : AllStat env jsm.entries) :
    ∃ sm, (getSyncMapFromSystem env cmd).sm = some sm ∧
      (getSyncMapFromSystem env cmd).err = none ∧
      sm.len = ((jsm.entries.map JSONSyncEntry.Src).dedup).length ∧
      (∀ k, k ∈ sm.keys ↔ k ∈ jsm.entries.map JSONSyncEntry.Src) ∧
      sm.keys.Nodup := by
  rw [getSyncMapFromSystem_ok env cmd out whole payload jsm hrun hfind hdec hstat]
  obtain ⟨hd, hg⟩ := allStat_append.1 hstat
  obtain ⟨n₁, k₁⟩ := addEntries_keys env SyncMap.empty jsm.Direct true hd List.nodup_nil
  obtain ⟨n₂, k₂⟩ := addEntries_keys env _ jsm.Generated false hg n₁
  have hkeys : ∀ k, k ∈ (SyncMap.addEntries env
      (SyncMap.addEntries env SyncMap.empty jsm.Direct true).sm jsm.Generated false).sm.keys ↔
      k ∈ jsm.entries.map JSONSyncEntry.Src := by
    intro k
    rw [k₂ k, k₁ k]
    simp only [JSONSyncMap.entries, List.map_append, List.mem_append, SyncMap.empty,
      SyncMap.keys, List.map_nil, List.not_mem_nil, or_false]
    tauto
  refine ⟨_, rfl, rfl, ?_, hkeys, n₂⟩
  have e₁ : (SyncMap.addEntries env
      (SyncMap.addEntries env SyncMap.empty jsm.Direct true).sm jsm.Generated false).sm.keys.toFinset =
      (jsm.entries.map JSONSyncEntry.Src).toFinset := by
    ext k
    simp only [List.mem_toFinset]
    exact hkeys k
  have e₂ := List.toFinset_card_of_nodup n₂
  have e₃ := List.card_toFinset (jsm.entries.map JSONSyncEntry.Src)
  rw [e₁] at e₂
  unfold SyncMap.len
  have e₄ : (SyncMap.addEntries env
      (SyncMap.addEntries env SyncMap.empty jsm.Direct true).sm jsm.Generated false).sm.keys.length =
      (SyncMap.addEntries env
      (SyncMap.addEntries env SyncMap.empty jsm.Direct true).sm jsm.Generated false).sm.length := by
    simp [SyncMap.keys]
  rw [← e₄, ← e₂, e₃]

/-- C4 at `exampleOutput`: three wire entries, two distinct sources. -/
theorem len_eq_distinct_srcs_witness :
    ∃ sm, (getSyncMapFromSystem (exampleSystem [(bytes "/a/A.txt", 7), (bytes "/a/B.java", 9)]) []).sm =
        some sm ∧
      (getSyncMapFromSystem (exampleSystem [(bytes "/a/A.txt", 7), (bytes "/a/B.java", 9)]) []).err =
        none ∧
      sm.len = ((exampleDecoded.entries.map JSONSyncEntry.Src).dedup).length ∧
      (∀ k, k ∈ sm.keys ↔ k ∈ exampleDecoded.entries.map JSONSyncEntry.Src) ∧
      sm.keys.Nodup :=
  len_eq_distinct_srcs (exampleSystem [(bytes "/a/A.txt", 7), (bytes "/a/B.java", 9)]) [] exampleOutput
    (bytes "BEGIN JIB JSON: SYNCMAP/1\n" ++ examplePayload) examplePayload exampleDecoded
    rfl (by decide) rfl exampleSystem_allStat

/-- C5: on a successful extraction the entry under the key `k` has as `Dest`
the one-element slice with the `Dest` of the last wire entry whose `Src` is `k`
in processing order (direct, then generated), and as `FileTime` the
modification time that `os.Stat` returned for `k`. For the output
"BEGIN JIB JSON: SYNCMAP/1" followed by the line
`{"direct":[{"src":"/a/A.class","dest":"/app/A.class"}],"generated":[]}`, with
`/a/A.class` modified at `T`, the map is exactly
`/a/A.class -> {["/app/A.class"], T, true}`. -/
theorem entry_dest_and_time (env : Env) (cmd : Cmd) (out whole payload : Bytes)
    (jsm : JSONSyncMap) (hrun : env.RunCmdOut cmd = Except.ok out)
    (hfind : markerRegex.FindSubmatch out = [whole, payload])
    (hdec : env.Unmarshal (normalizePayload payload) = Except.ok jsm)
    (hstat : AllStat env jsm.entries) :
    (∃ sm, (getSyncMapFromSystem env cmd).sm = some sm ∧
      (getSyncMapFromSystem env cmd).err = none ∧
      ∀ k e, sm.get? k = some e →
        ∃ w info, lastWithSrc jsm.entries k = some w ∧ e.Dest = [w.Dest] ∧
          env.Stat k = Except.ok info ∧ e.FileTime = info.ModTime) ∧
    (∀ (env' : Env) (cmd' : Cmd) (T : Time),
      env'.RunCmdOut cmd' = Except.ok (bytes
        "BEGIN JIB JSON: SYNCMAP/1\n\x7b\"direct\":[\x7b\"src\":\"/a/A.class\",\"dest\":\"/app/A.class\"\x7d],\"generated\":[]\x7d") →
      env'.Unmarshal (bytes
        "\x7b\"direct\":[\x7b\"src\":\"/a/A.class\",\"dest\":\"/app/A.class\"\x7d],\"generated\":[]\x7d") =
        Except.ok ⟨[⟨bytes "/a/A.class", bytes "/app/A.class"⟩], []⟩ →
      env'.Stat (bytes "/a/A.class") = Except.ok ⟨T⟩ →
      (getSyncMapFromSystem env' cmd').sm =
          some [(bytes "/a/A.class", ⟨[bytes "/app/A.class"], T, true⟩)] ∧
        (getSyncMapFromSystem env' cmd').err = none) := by
  constructor
  · rw [getSyncMapFromSystem_ok env cmd out whole payload jsm hrun hfind hdec hstat]
    refine ⟨_, rfl, rfl, ?_⟩
    intro k e he
    rw [final_get? env jsm hstat k] at he
    have hl := lastWithSrc_append jsm.Direct jsm.Generated k
    have key : ∀ w, lastWithSrc jsm.entries k = some w →
        ∃ info, env.Stat k = Except.ok info ∧ statTime env k = info.ModTime := by
      intro w hw
      obtain ⟨hmem, hsrc⟩ := lastWithSrc_some hw
      obtain ⟨info, hi⟩ := hstat w hmem
      rw [hsrc] at hi
      exact ⟨info, hi, statTime_eq hi⟩
    cases hg : lastWithSrc jsm.Generated k with
    | some w =>
      rw [hg] at he hl
      have hw : lastWithSrc jsm.entries k = some w := hl
      obtain ⟨info, hi, ht⟩ := key w hw
      simp only [Option.some.injEq] at he
      exact ⟨w, info, hw, by rw [← he], hi, by rw [← he, ← ht]⟩
    | none =>
      rw [hg] at he hl
      cases hd : lastWithSrc jsm.Direct k with
      | some w =>
        rw [hd] at he hl
        have hw : lastWithSrc jsm.entries k = some w := hl
        obtain ⟨info, hi, ht⟩ := key w hw
        simp only [Option.some.injEq] at he
        exact ⟨w, info, hw, by rw [← he], hi, by rw [← he, ← ht]⟩
      | none =>
        rw [hd] at he
        cases he
  · intro env' cmd' T hrun' hdec' hstat'
    have hfind' : markerFind (bytes
        "BEGIN JIB JSON: SYNCMAP/1\n\x7b\"direct\":[\x7b\"src\":\"/a/A.class\",\"dest\":\"/app/A.class\"\x7d],\"generated\":[]\x7d") =
        some (bytes
          "\x7b\"direct\":[\x7b\"src\":\"/a/A.class\",\"dest\":\"/app/A.class\"\x7d],\"generated\":[]\x7d") := by
      decide
    have hnorm : normalizePayload (bytes
        "\x7b\"direct\":[\x7b\"src\":\"/a/A.class\",\"dest\":\"/app/A.class\"\x7d],\"generated\":[]\x7d") =
        bytes "\x7b\"direct\":[\x7b\"src\":\"/a/A.class\",\"dest\":\"/app/A.class\"\x7d],\"generated\":[]\x7d" := by
      decide
    rw [getSyncMapFromSystem_found env' cmd' _ _ hrun' hfind', hnorm, hdec']
    simp only [buildSyncMap, SyncMap.addEntries, hstat']
    exact ⟨rfl, trivial⟩

/-- C5 at `exampleOutput`. -/
theorem entry_dest_and_time_witness :
    ∃ sm, (getSyncMapFromSystem (exampleSystem [(bytes "/a/A.txt", 7), (bytes "/a/B.java", 9)]) []).sm =
        some sm ∧
      (getSyncMapFromSystem (exampleSystem [(bytes "/a/A.txt", 7), (bytes "/a/B.java", 9)]) []).err =
        none ∧
      ∀ k e, sm.get? k = some e →
        ∃ w info, lastWithSrc exampleDecoded.entries k = some w ∧ e.Dest = [w.Dest] ∧
          (exampleSystem [(bytes "/a/A.txt", 7), (bytes "/a/B.java", 9)]).Stat k = Except.ok info ∧
          e.FileTime = info.ModTime :=
  (entry_dest_and_time (exampleSystem [(bytes "/a/A.txt", 7), (bytes "/a/B.java", 9)]) [] exampleOutput
    (bytes "BEGIN JIB JSON: SYNCMAP/1\n" ++ examplePayload) examplePayload exampleDecoded
    rfl (by decide) rfl exampleSystem_allStat).1

/-! ## The claims about the payload normaliser -/

/-- C7: the normalisation `bytes.Replace(payload, "\\", "\\\\", -1)` is a
function of the payload alone that puts two backslashes for each backslash and
copies every other byte in order; the result is longer than the payload by the
number of its backslashes, and collapsing the doubled backslashes gives the
payload back. -/
theorem normalizePayload_doubles (s : Bytes) :
    normalizePayload s = (s.map (fun b => if b = 92 then [92, 92] else [b])).flatten ∧
      (normalizePayload s).length = s.length + s.count 92 ∧
      (normalizePayload s).filter (fun b => b ≠ 92) = s.filter (fun b => b ≠ 92) ∧
      (normalizePayload s).count 92 = 2 * s.count 92 ∧
      collapseBackslashes (normalizePayload s) = s := by
  refine ⟨normalizePayload_eq s, ?_, ?_, ?_, collapse_normalize s⟩
  · induction s with
    | nil => rfl
    | cons x xs ih =>
      rw [normalizePayload_cons, List.length_append, ih]
      by_cases h : x = 92
      · subst h
        simp [doubleBackslash]
        omega
      · have h' : ¬ (x == 92) = true := by simpa using h
        simp [doubleBackslash, h, List.count_cons, h']
        omega
  · induction s with
    | nil => rfl
    | cons x xs ih =>
      rw [normalizePayload_cons, List.filter_append, ih]
      by_cases h : x = 92
      · subst h
        simp [doubleBackslash]
      · simp [doubleBackslash, h]
  · induction s with
    | nil => rfl
    | cons x xs ih =>
      rw [normalizePayload_cons, List.count_append, ih]
      by_cases h : x = 92
      · subst h
        simp [doubleBackslash]
        omega
      · have h' : ¬ (x == 92) = true := by simpa using h
        simp [doubleBackslash, h, List.count_cons, h']

/-! ## The claim about normalisation followed by decoding -/

/-- C6, as the code has it. Let the payload be a line of the wire format with
the value texts `D` (direct) and `G` (generated), let the decoder return `jsm`
for the normalised line, each string of `jsm` being what Go's `unquoteBytes`
returns for the literal of the normalised line, and let every decoded source be
stat-able. Then the normalised line holds the literals of the normalised values;
the decoded entries pair off with the wire entries, each decoded string being
its value coerced to well-formed UTF-8: every backslash and every other ASCII
byte of the value comes out once and in order, an ill-formed byte comes out as
U+FFFD, and a well-formed value comes out byte for byte, backslashes at their
positions; the extraction succeeds, every decoded `Src` is a key of the
resulting map, and every key and `Dest` of the map is the decoded `Src` and
`Dest` of a wire entry. The decoder accepts every value without control
character and double quote. -/
theorem backslash_survives_decoding (env : Env) (cmd : Cmd) (out whole : Bytes)
    (D G : List (Bytes × Bytes)) (jsm : JSONSyncMap)
    (hrun : env.RunCmdOut cmd = Except.ok out)
    (hfind : markerRegex.FindSubmatch out = [whole, renderPayload D G])
    (hdec : env.Unmarshal (normalizePayload (renderPayload D G)) = Except.ok jsm)
    (hwire : decodeWire D G = some jsm)
    (hstat : AllStat env jsm.entries) :
    normalizePayload (renderPayload D G) =
        renderPayload (normalizeValues D) (normalizeValues G) ∧
      List.Forall₂ (fun w e => DecodedValue w.1 e.Src ∧ DecodedValue w.2 e.Dest)
        (D ++ G) jsm.entries ∧
      (∃ sm, (getSyncMapFromSystem env cmd).sm = some sm ∧
        (getSyncMapFromSystem env cmd).err = none ∧
        (∀ e ∈ jsm.entries, ∃ x, sm.get? e.Src = some x) ∧
        (∀ k x, sm.get? k = some x →
          ∃ e, lastWithSrc jsm.entries k = some e ∧ e.Src = k ∧ x.Dest = [e.Dest])) ∧
      (∀ v, Clean v → ∃ d, decodeValue v = some d) := by
  refine ⟨normalizePayload_renderPayload D G, decodeWire_spec hwire, ?_,
    fun v hv => decodeValue_isSome hv⟩
  rw [getSyncMapFromSystem_ok env cmd out whole _ jsm hrun hfind hdec hstat]
  exact ⟨_, rfl, rfl, (final_entries env jsm hstat).1, (final_entries env jsm hstat).2⟩

/-- C6 at a payload whose only entry has the source `C:\src\A.class`. -/
theorem backslash_survives_decoding_witness :
    List.Forall₂ (fun w e => DecodedValue w.1 e.Src ∧ DecodedValue w.2 e.Dest)
        (windowsWire ++ []) windowsDecoded.entries ∧
      (∃ sm, (getSyncMapFromSystem
          (wireSystem windowsWire [] windowsDecoded [(bytes "C:\\src\\A.class", 7)]) []).sm =
          some sm ∧
        (getSyncMapFromSystem
          (wireSystem windowsWire [] windowsDecoded [(bytes "C:\\src\\A.class", 7)]) []).err =
          none ∧
        (∀ e ∈ windowsDecoded.entries, ∃ x, sm.get? e.Src = some x) ∧
        (∀ k x, sm.get? k = some x →
          ∃ e, lastWithSrc windowsDecoded.entries k = some e ∧ e.Src = k ∧ x.Dest = [e.Dest])) ∧
      (getSyncMapFromSystem
          (wireSystem windowsWire [] windowsDecoded [(bytes "C:\\src\\A.class", 7)]) []).sm =
        some [(bytes "C:\\src\\A.class", ⟨[bytes "/app/A.class"], 7, true⟩)] :=
  have h := backslash_survives_decoding
    (wireSystem windowsWire [] windowsDecoded [(bytes "C:\\src\\A.class", 7)]) []
    (wireOutput windowsWire [])
    (bytes "BEGIN JIB JSON: SYNCMAP/1\n" ++ renderPayload windowsWire []) windowsWire []
    windowsDecoded rfl (by decide) rfl (by decide)
    (by intro e he; rw [List.mem_singleton.1 he]; exact ⟨⟨7⟩, rfl⟩)
  ⟨h.2.1, h.2.2.1, by decide⟩

/-- C6 as stated fails for a value that is not well-formed UTF-8. For the
source `C:\` followed by the byte 0xE9 the decoder returns `C:\` followed by
the three bytes of U+FFFD; that string, not the text of the payload, is the key
of the resulting map. -/
theorem ill_formed_value_replaced :
    decodeWire latin1Wire [] = some latin1Decoded ∧
      (getSyncMapFromSystem
          (wireSystem latin1Wire [] latin1Decoded [([67, 58, 92, 0xEF, 0xBF, 0xBD], 5)]) []).sm =
        some [([67, 58, 92, 0xEF, 0xBF, 0xBD], ⟨[bytes "/app/x"], 5, true⟩)] ∧
      [67, 58, 92, 0xEF, 0xBF, 0xBD] ≠ [67, 58, 92, 0xE9] := by
  refine ⟨?_, ?_, ?_⟩ <;> decide

end Jib
